import Mathlib

/-!
# CodeFusion backend (`src/backend/server.js`): session identifiers, clone registry,
# filesystem walker, consolidation, deletion and preview

A shallow embedding of the request handlers of `server.js` and of the helpers they call.

Conventions of the embedding

* A JavaScript string is a list of characters (`Str`).
* A JavaScript number that holds an integer is an `Int`; `NaN` is `none`.  The integers that
  occur (epoch milliseconds, file counts) are far below `2^53`, where numbers are exact.
* The host is a POSIX system: `path.sep` is `/`, and a file name is any string without `/`.
* An operation that can throw returns an `Option`; `none` is the thrown exception.
-/

namespace CodeFusion

/-- A JavaScript string. -/
abbrev Str := List Char

/-! ## String and array primitives of the language -/

/-- `String.prototype.split(sep)` for a one-character separator: the maximal pieces between
occurrences of `sep`; the empty string gives one empty piece. -/
def split (sep : Char) : Str → List Str
  | [] => [[]]
  | c :: cs =>
    if c = sep then [] :: split sep cs
    else
      match split sep cs with
      | [] => [[c]]
      | p :: ps => (c :: p) :: ps

/-- `Array.prototype.join(sep)` on an array of strings. -/
def join (sep : Str) : List Str → Str
  | [] => []
  | [p] => p
  | p :: q :: ps => p ++ sep ++ join sep (q :: ps)

/-- Relative index of `Array.prototype.slice`: a negative index counts from the end, and the
result is clamped to `[0, len]`. -/
def relIndex (len : Nat) (k : Int) : Nat :=
  if k < 0 then (len + k).toNat else min k.toNat len

/-- `Array.prototype.slice(start, stop)`. -/
def slice {α : Type} (xs : List α) (start stop : Int) : List α :=
  let a := relIndex xs.length start
  let b := relIndex xs.length stop
  (xs.take b).drop a

/-- `String.prototype.startsWith(p)`. -/
def startsWith (s p : Str) : Bool := p.isPrefixOf s

/-- `Array.prototype.includes(x)` on an array of strings. -/
def includes (xs : List Str) (x : Str) : Bool := xs.contains x

/-- `String.prototype.repeat(n)`. -/
def strRepeat (s : Str) : Nat → Str
  | 0 => []
  | n + 1 => s ++ strRepeat s n

/-- `String.prototype.replace(/\\/g, '/')`: every backslash becomes a forward slash. -/
def replaceBackslashes (s : Str) : Str :=
  s.map fun c => if c = '\\' then '/' else c

/-- The white space and line terminator code points that `parseInt` skips at the start. -/
def isWhiteSpace (c : Char) : Bool :=
  let n := c.toNat
  n = 9 || n = 10 || n = 11 || n = 12 || n = 13 || n = 32 || n = 160 || n = 5760 ||
  (8192 ≤ n && n ≤ 8202) || n = 8232 || n = 8233 || n = 8239 || n = 8287 || n = 12288 ||
  n = 65279

/-- Value of a character as a digit of the given radix, if it is one. -/
def digitValue (radix : Nat) (c : Char) : Option Nat :=
  let n := c.toNat
  let v : Option Nat :=
    if 48 ≤ n ∧ n ≤ 57 then some (n - 48)
    else if 97 ≤ n ∧ n ≤ 122 then some (n - 87)
    else if 65 ≤ n ∧ n ≤ 90 then some (n - 55)
    else none
  match v with
  | some d => if d < radix then some d else none
  | none => none

/-- The longest prefix of radix digits, as digit values. -/
def leadingDigits (radix : Nat) : Str → List Nat
  | [] => []
  | c :: cs =>
    match digitValue radix c with
    | some d => d :: leadingDigits radix cs
    | none => []

/-- Value of a digit sequence, most significant digit first. -/
def digitsValue (radix : Nat) (ds : List Nat) : Nat :=
  ds.foldl (fun acc d => acc * radix + d) 0

/-- Global `parseInt(s)` called with one argument: leading white space is skipped, a sign is
read, a `0x`/`0X` prefix selects radix 16, and the longest prefix of digits is the value;
characters after it are ignored.  No digit at all gives `NaN` (`none`). -/
def parseInt (s : Str) : Option Int :=
  let s1 := s.dropWhile isWhiteSpace
  let sign : Int := if s1.head? = some '-' then -1 else 1
  let s2 := if s1.head? = some '-' ∨ s1.head? = some '+' then s1.tail else s1
  let hex := startsWith s2 "0x".toList || startsWith s2 "0X".toList
  let radix := if hex then 16 else 10
  let s3 := if hex then s2.drop 2 else s2
  let ds := leadingDigits radix s3
  if ds = [] then none else some (sign * (digitsValue radix ds : Int))

/-- The decimal digit character of `d < 10`. -/
def digitChar (d : Nat) : Char := Char.ofNat (48 + d)

/-- Decimal digits of `n`, most significant first, with recursion fuel. -/
def toDecimal : Nat → Nat → Str
  | 0, _ => []
  | fuel + 1, n =>
    if n < 10 then [digitChar n] else toDecimal fuel (n / 10) ++ [digitChar (n % 10)]

/-- The string a template literal makes of a non-negative integer number (below `10^21`, where
JavaScript prints plain decimal digits). -/
def numberToString (n : Nat) : Str := toDecimal (n + 1) n

/-! ## Session identifiers -/

/-- Lowest value (exclusive) a trailing timestamp must exceed, `server.js` line 93. -/
def TIMESTAMP_FLOOR : Int := 1000000000000

/-- The session identifier of `POST /api/clone` (line 148):
`${owner}-${repo}-${Date.now()}`, with `now` the value of `Date.now()`. -/
def makeSessionId (owner repo : Str) (now : Nat) : Str :=
  owner ++ "-".toList ++ repo ++ "-".toList ++ numberToString now

/-- What `getAllClonedRepos` reads off a directory name. -/
structure Decoded where
  owner : Str
  repo : Str
  clonedAt : Int
  deriving DecidableEq, Repr

/-- The parsing of a directory name in `getAllClonedRepos` (lines 85-95): split on `-`, at least
three parts, the last part parsed by `parseInt` must be a number above the floor; the owner is
the first part and the repository the middle parts joined by `-`. -/
def decodeSessionId (name : Str) : Option Decoded :=
  let parts := split '-' name
  if parts.length ≥ 3 then
    match parseInt (parts.getD (parts.length - 1) []) with
    | some timestamp =>
      if timestamp > TIMESTAMP_FLOOR then
        some { owner := parts.getD 0 [], repo := join "-".toList (slice parts 1 (-1)),
               clonedAt := timestamp }
      else none
    | none => none
  else none

/-- The last of the `-`-separated components of a name, `parts[parts.length - 1]`. -/
def finalComponent (name : Str) : Str :=
  (split '-' name).getD ((split '-' name).length - 1) []

/-- A decimal integer in the plain sense: one or more decimal digits and nothing else. -/
def isDecimalInteger (s : Str) : Bool :=
  !s.isEmpty && s.all (fun c => 48 ≤ c.toNat && c.toNat ≤ 57)

/-! ## The file system

The disk is a tree.  A non-directory entry carries what `fs.stat` and `fs.readFile` give for
it (either can fail: a dangling link, a missing permission); a directory carries its own
`stat` size, whether `fs.readdir` succeeds on it, and its entries in `readdir` order. -/

mutual
/-- A node of the file system tree. -/
inductive Node where
  | file (size : Option Nat) (content : Option Str)
  | dir (size : Nat) (readable : Bool) (entries : Entries)
  deriving DecidableEq
/-- The entries of a directory, in the order `fs.readdir` lists them. -/
inductive Entries where
  | nil
  | cons (name : Str) (node : Node) (rest : Entries)
  deriving DecidableEq
end

/-- `Dirent.isDirectory()`. -/
def Node.isDirectory : Node → Bool
  | .dir _ _ _ => true
  | .file _ _ => false

/-- The entry called `name`, if there is one. -/
def Entries.find (name : Str) : Entries → Option Node
  | .nil => none
  | .cons n node rest => if n = name then some node else rest.find name

/-- The node reached from `node` by following the given names downwards. -/
def Node.walk : Node → List Str → Option Node
  | node, [] => some node
  | .file _ _, _ :: _ => none
  | .dir _ _ entries, seg :: segs =>
    match entries.find seg with
    | some child => child.walk segs
    | none => none

/-- A normalized absolute path: its segments below `/`, and whether it is written with a
trailing `/` (which only a directory satisfies). -/
structure Path where
  segs : List Str
  trailing : Bool
  deriving DecidableEq, Repr

/-- Lexical normalization of `path.join`: empty and `.` segments vanish, `..` removes the
segment before it (and nothing at the root). -/
def normalizeSegs : List Str → List Str → List Str
  | done, [] => done
  | done, seg :: more =>
    if seg = [] ∨ seg = ".".toList then normalizeSegs done more
    else if seg = "..".toList then normalizeSegs done.dropLast more
    else normalizeSegs (done ++ [seg]) more

/-- `path.join(base, rel)` for a normalized absolute `base`. -/
def pathJoin (base : Path) (rel : Str) : Path :=
  { segs := normalizeSegs base.segs (split '/' rel)
    trailing := if rel = [] then base.trailing else rel.getLast? = some '/' }

/-- The machine: the tree below `/` and the location of `CLONE_DIR`
(`path.join(__dirname, 'cloned_repos')`). -/
structure World where
  root : Node
  cloneDir : Path
  deriving DecidableEq

/-- The node a path names.  A path with a NUL character is refused by every `fs` call. -/
def World.lookup (w : World) (p : Path) : Option Node :=
  if p.segs.any (fun seg => seg.contains (Char.ofNat 0)) then none
  else
    match w.root.walk p.segs with
    | some node => if p.trailing && !node.isDirectory then none else some node
    | none => none

/-- `fs.access(p)` succeeds. -/
def World.access (w : World) (p : Path) : Bool := (w.lookup p).isSome

/-- `fs.readFile(p, 'utf-8')`. -/
def World.readFile (w : World) (p : Path) : Option Str :=
  match w.lookup p with
  | some (.file _ content) => content
  | _ => none

/-- The directory entries without those called `name`. -/
def Entries.remove (name : Str) : Entries → Entries
  | .nil => .nil
  | .cons n node rest =>
    if n = name then rest.remove name else .cons n node (rest.remove name)

/-- The directory entries with the first entry called `name` replaced by `node`. -/
def Entries.replace (name : Str) (node : Node) : Entries → Entries
  | .nil => .nil
  | .cons n old rest =>
    if n = name then .cons n node rest else .cons n old (rest.replace name node)

/-- The tree without the entry at the given names (with everything below it). -/
def Node.removeAt : Node → List Str → Node
  | node, [] => node
  | .file size content, _ :: _ => .file size content
  | .dir size readable entries, seg :: segs =>
    match segs with
    | [] => .dir size readable (entries.remove seg)
    | _ :: _ =>
      match entries.find seg with
      | some child => .dir size readable (entries.replace seg (child.removeAt segs))
      | none => .dir size readable entries

/-- Following the names runs into a non-directory before the last name (`ENOTDIR`). -/
def Node.throughFile : Node → List Str → Bool
  | _, [] => false
  | .file _ _, _ :: _ => true
  | .dir _ _ entries, seg :: segs =>
    match entries.find seg with
    | some child => child.throughFile segs
    | none => false

/-- Every directory among the entries, at every depth, is empty or can be listed: a recursive
removal has to list a directory to empty it. -/
def Entries.removable : Entries → Bool
  | .nil => true
  | .cons _ (.file _ _) rest => rest.removable
  | .cons _ (.dir _ readable children) rest =>
    (children = .nil || (readable && children.removable)) && rest.removable

/-- A recursive removal of the node meets no directory it cannot empty. -/
def Node.removable : Node → Bool
  | .file _ _ => true
  | .dir _ readable entries => entries = .nil || (readable && entries.removable)

/-- `fs.rm(p, { recursive: true, force: true })`: the disk afterwards, or `none` when it
throws.  A missing path is not an error (`force`).  It throws for a path with a NUL character,
for the root, for a path that runs through a non-directory, and for a tree with a non-empty
directory that cannot be listed; what a throwing call removed before it failed is not
modelled. -/
def World.rm (w : World) (p : Path) : Option World :=
  if p.segs.any (fun seg => seg.contains (Char.ofNat 0)) then none
  else if p.segs = [] then none
  else
    match w.root.walk p.segs with
    | some node =>
      if p.trailing && !node.isDirectory then none
      else if node.removable then some { w with root := w.root.removeAt p.segs }
      else none
    | none => if w.root.throughFile p.segs then none else some w

/-- The directory without its entries called `name`; a non-directory as it is. -/
def Node.without (name : Str) : Node → Node
  | .file size content => .file size content
  | .dir size readable entries => .dir size readable (entries.remove name)

/-- The names of the entries of a directory. -/
def Entries.names : Entries → List Str
  | .nil => []
  | .cons name _ rest => name :: rest.names

/-- No entry directly under the clone root has a `/` in its name (as on any file system). -/
def World.cloneRootNamesOk (w : World) : Bool :=
  match w.root.walk w.cloneDir.segs with
  | some (.dir _ _ entries) => entries.names.all (fun n => !n.contains '/')
  | _ => true

/-- A name with neither `/` nor a backslash in it. -/
def plainName (name : Str) : Bool := !name.contains '/' && !name.contains '\\'

/-- Some entry of the directory is called `name`. -/
def Entries.hasName (name : Str) : Entries → Bool
  | .nil => false
  | .cons n _ rest => n = name || rest.hasName name

/-- Every entry name, at every depth, is a plain name. -/
def Entries.plainNames : Entries → Bool
  | .nil => true
  | .cons name (.file _ _) rest => plainName name && rest.plainNames
  | .cons name (.dir _ _ children) rest =>
    plainName name && children.plainNames && rest.plainNames

/-- No directory, at any depth, has two entries of the same name. -/
def Entries.distinctNames : Entries → Bool
  | .nil => true
  | .cons name (.file _ _) rest => !rest.hasName name && rest.distinctNames
  | .cons name (.dir _ _ children) rest =>
    !rest.hasName name && children.distinctNames && rest.distinctNames

/-! ## Filesystem walker -/

/-- One record of the manifest.  (The source also stores `sizeKB`, a display string computed
from `size`; it is not modelled.) -/
structure FileInfo where
  path : Str
  size : Nat
  deriving DecidableEq, Repr

/-- Default value of the `excludeDirs` parameter of `getAllFiles`. -/
def DEFAULT_EXCLUDE_DIRS : List Str :=
  [".git".toList, "node_modules".toList, ".next".toList, "dist".toList, "build".toList]

/-- The inner `traverse` of `getAllFiles` (lines 38-58), run over the entries of the current
directory; `pre` holds the names from `baseDir` down to the current directory, so that
`path.relative(baseDir, fullPath)` is `pre` and the entry name joined by `/`.  The result is
what the loop pushes onto `files`, in order. -/
def traverse (excludeDirs : List Str) (pre : List Str) : Entries → Option (List FileInfo)
  | .nil => some []
  | .cons name (.dir _ readable children) rest =>
    if !includes excludeDirs name then
      if readable then
        match traverse excludeDirs (pre ++ [name]) children with
        | some inner =>
          match traverse excludeDirs pre rest with
          | some later => some (inner ++ later)
          | none => none
        | none => none
      else none
    else traverse excludeDirs pre rest
  | .cons name (.file size _) rest =>
    match size with
    | some bytes =>
      match traverse excludeDirs pre rest with
      | some later =>
        some ({ path := replaceBackslashes (join "/".toList (pre ++ [name])), size := bytes }
              :: later)
      | none => none
    | none => none

/-- `getAllFiles(dirPath, dirPath, excludeDirs)` (lines 35-62) on the node found at `dirPath`;
every call site passes the same path as `dirPath` and `baseDir`. -/
def getAllFiles (node : Option Node) (excludeDirs : List Str) : Option (List FileInfo) :=
  match node with
  | some (.dir _ true entries) => traverse excludeDirs [] entries
  | _ => none

/-- The walk meets no failure: every directory it enters can be listed and every non-directory
entry it meets can be `stat`-ed (excluded directories are not entered). -/
def Entries.walkable (excludeDirs : List Str) : Entries → Bool
  | .nil => true
  | .cons _ (.file size _) rest => size.isSome && rest.walkable excludeDirs
  | .cons name (.dir _ readable children) rest =>
    (includes excludeDirs name || (readable && children.walkable excludeDirs))
      && rest.walkable excludeDirs

/-- The record `f` stands for a non-directory entry below `entries`: its path is made of `pre`
and the names `n :: tail` leading to the entry, the directories on the way are not excluded,
and (when sibling names are distinct) following the names through the tree ends at a
non-directory whose `stat` size is `f.size`. -/
def RecordsEntry (excludeDirs : List Str) (pre : List Str) (entries : Entries)
    (f : FileInfo) : Prop :=
  ∃ n tail, f.path = replaceBackslashes (join "/".toList (pre ++ n :: tail)) ∧
    (∀ d ∈ (n :: tail).dropLast, includes excludeDirs d = false) ∧
    (∀ d ∈ n :: tail, plainName d = true) ∧
    entries.hasName n = true ∧
    (entries.distinctNames = true →
      ∃ node c, entries.find n = some node ∧ node.walk tail = some (.file (some f.size) c))

/-! ## Clone registry -/

/-- One element of the list `getAllClonedRepos` returns. -/
structure RepoSummary where
  sessionId : Str
  owner : Str
  repo : Str
  clonedAt : Int
  totalFiles : Nat
  size : Nat
  deriving DecidableEq, Repr

/-- The loop of `getAllClonedRepos` (lines 78-115) over the entries of `CLONE_DIR`: the value
of `repos` when the loop ends.  An entry whose walk throws is skipped by the inner `catch`. -/
def collectRepos : Entries → List RepoSummary
  | .nil => []
  | .cons name node rest =>
    let found : Option RepoSummary :=
      match node with
      | .dir size _ _ =>
        if !startsWith name ".".toList then
          match decodeSessionId name with
          | some d =>
            match getAllFiles (some node) DEFAULT_EXCLUDE_DIRS with
            | some files =>
              some { sessionId := name, owner := d.owner, repo := d.repo,
                     clonedAt := d.clonedAt, totalFiles := files.length, size := size }
            | none => none
          | none => none
        else none
      | .file _ _ => none
    match found with
    | some r => r :: collectRepos rest
    | none => collectRepos rest

/-- The comparator of line 118, `(a, b) => b.clonedAt - a.clonedAt`. -/
def compareRepos (a b : RepoSummary) : Int := b.clonedAt - a.clonedAt

/-- `Array.prototype.sort(compare)`: a stable sort, `a` stays before `b` when
`compare(a, b) ≤ 0`. -/
def sortBy {α : Type} (compare : α → α → Int) (xs : List α) : List α :=
  xs.insertionSort (fun a b => compare a b ≤ 0)

/-- Lines 68-75 of `getAllClonedRepos`: the entries of `CLONE_DIR`; `none` when the directory
is missing (`fs.access` fails) or `fs.readdir` throws. -/
def cloneDirEntries (w : World) : Option Entries :=
  if w.access w.cloneDir then
    match w.lookup w.cloneDir with
    | some (.dir _ true entries) => some entries
    | _ => none
  else none

/-- `getAllClonedRepos()` (lines 65-123): the empty list when `CLONE_DIR` is missing or cannot
be listed, else the collected summaries sorted by the comparator. -/
def getAllClonedRepos (w : World) : List RepoSummary :=
  match cloneDirEntries w with
  | some entries => sortBy compareRepos (collectRepos entries)
  | none => []

/-! ## Repository URL -/

/-- The lazy group `([^\/]+?)` followed by `(?:\.git)?$`, after `taken` has been consumed by
the group: the match ends here if what is left is `.git` or nothing, else the group grows by
one character that is not `/`. -/
def matchRepoTail : Str → Str → Option Str
  | taken, [] => some taken
  | taken, c :: cs =>
    if c :: cs = ".git".toList then some taken
    else if c ≠ '/' then matchRepoTail (taken ++ [c]) cs
    else none

/-- The regular expression `/github\.com\/([^\/]+)\/([^\/]+?)(?:\.git)?$/` tried at the start
of `s`; the captures on success.  The greedy first group can only end at the first `/`: a
shorter run would be followed by a character other than the `/` the pattern requires. -/
def matchHere (s : Str) : Option (Str × Str) :=
  if "github.com/".toList.isPrefixOf s then
    let r := s.drop "github.com/".toList.length
    let owner := r.takeWhile (fun c => c ≠ '/')
    if owner = [] then none
    else
      match r.dropWhile (fun c => c ≠ '/') with
      | '/' :: c :: cs =>
        if c ≠ '/' then
          match matchRepoTail [c] cs with
          | some repo => some (owner, repo)
          | none => none
        else none
      | _ => none
  else none

/-- `parseGitHubUrl(url)` (lines 26-32): `url.match` tries the pattern at every position from
the left and keeps the first match; `none` is the thrown `Invalid GitHub URL`. -/
def parseGitHubUrl : Str → Option (Str × Str)
  | [] => matchHere []
  | c :: cs =>
    match matchHere (c :: cs) with
    | some m => some m
    | none => parseGitHubUrl cs

/-! ## Sessions cache and request handlers -/

/-- A value of the `sessions` map. -/
structure Session where
  clonePath : Path
  repoUrl : Option Str
  owner : Str
  repo : Str
  files : List FileInfo
  createdAt : Option Int
  deriving DecidableEq, Repr

/-- The `sessions` map (line 14), in insertion order. -/
abbrev Sessions := List (Str × Session)

/-- `sessions.get(key)`. -/
def Sessions.get (m : Sessions) (key : Str) : Option Session :=
  match m with
  | [] => none
  | (k, v) :: rest => if k = key then some v else Sessions.get rest key

/-- `sessions.set(key, value)`. -/
def Sessions.set (m : Sessions) (key : Str) (value : Session) : Sessions :=
  match m with
  | [] => [(key, value)]
  | (k, v) :: rest => if k = key then (k, value) :: rest else (k, v) :: Sessions.set rest key value

/-- What a handler sends.  An error carries the HTTP status and the message; the message of an
exception raised by the runtime is not modelled (`none`). -/
inductive Response where
  | error (status : Nat) (message : Option Str)
  | cloneInfo (sessionId owner repo : Str) (totalFiles : Nat) (files : List FileInfo)
  | generated (processedFiles : Nat) (content : Str) (filename : Str)
  | success
  | preview (preview : Str) (totalLines : Nat) (hasMore : Bool)
  deriving DecidableEq, Repr

/-- `POST /api/clone` (lines 139-184).  `now1` and `now2` are the two readings of `Date.now()`;
`gitClone` is the external `git.clone(repoUrl, clonePath, ['--depth', '1'])`, giving the disk
afterwards and whether it succeeded. -/
def cloneRepo (gitClone : World → Str → Path → World × Bool) (now1 now2 : Nat)
    (w : World) (sessions : Sessions) (repoUrl : Option Str) : World × Sessions × Response :=
  match repoUrl with
  | none => (w, sessions, .error 400 (some "Repository URL is required".toList))
  | some url =>
    if url = [] then (w, sessions, .error 400 (some "Repository URL is required".toList))
    else
      match parseGitHubUrl url with
      | none => (w, sessions, .error 500 (some "Invalid GitHub URL".toList))
      | some (owner, repo) =>
        let sessionId := makeSessionId owner repo now1
        let clonePath := pathJoin w.cloneDir sessionId
        let cloned := gitClone w url clonePath
        if cloned.2 then
          match getAllFiles (cloned.1.lookup clonePath) DEFAULT_EXCLUDE_DIRS with
          | some files =>
            (cloned.1,
             Sessions.set sessions sessionId
               { clonePath := clonePath, repoUrl := some url, owner := owner, repo := repo,
                 files := files, createdAt := some (now2 : Int) },
             .cloneInfo sessionId owner repo files.length files)
          | none => (cloned.1, sessions, .error 500 none)
        else (cloned.1, sessions, .error 500 none)

/-- `GET /api/clone/:sessionId` (lines 187-239). -/
def loadClone (w : World) (sessions : Sessions) (sessionId : Str) : Sessions × Response :=
  let clonePath := pathJoin w.cloneDir sessionId
  if !w.access clonePath then (sessions, .error 404 (some "Clone not found".toList))
  else
    let parts := split '-' sessionId
    if parts.length < 3 then (sessions, .error 400 (some "Invalid session ID".toList))
    else
      let timestamp := parseInt (parts.getD (parts.length - 1) [])
      let owner := parts.getD 0 []
      let repo := join "-".toList (slice parts 1 (-1))
      match getAllFiles (w.lookup clonePath) DEFAULT_EXCLUDE_DIRS with
      | some files =>
        (Sessions.set sessions sessionId
           { clonePath := clonePath, repoUrl := none, owner := owner, repo := repo,
             files := files, createdAt := timestamp },
         .cloneInfo sessionId owner repo files.length files)
      | none => (sessions, .error 500 none)

/-- Lines 278-295 of `POST /api/generate`: the cached session, or one parsed from the
identifier and put into the cache; `Except.error` is an early response. -/
def resolveSession (w : World) (sessions : Sessions) (sessionId : Str) (clonePath : Path) :
    Except Response (Sessions × Session) :=
  match Sessions.get sessions sessionId with
  | some session => .ok (sessions, session)
  | none =>
    let parts := split '-' sessionId
    if parts.length < 3 then .error (.error 400 (some "Invalid session ID".toList))
    else
      match getAllFiles (w.lookup clonePath) DEFAULT_EXCLUDE_DIRS with
      | some files =>
        let session : Session :=
          { clonePath := clonePath, repoUrl := none, owner := parts.getD 0 [],
            repo := parts.getD 1 [], files := files,
            createdAt := parseInt (parts.getD 2 []) }
        .ok (Sessions.set sessions sessionId session, session)
      | none => .error (.error 500 none)

/-- Lines 300-302: `filesToProcess`. -/
def filesToProcess (session : Session) (selectedFiles : Option (List Str)) : List Str :=
  match selectedFiles with
  | some sel => if sel.length > 0 then sel else session.files.map (fun f => f.path)
  | none => session.files.map (fun f => f.path)

/-- The line `'='.repeat(80)`. -/
def RULE : Str := strRepeat "=".toList 80

/-- Lines 304-307: the text `consolidatedContent` starts with. -/
def contentHeader (owner repo nowIso : Str) (total : Nat) : Str :=
  "# Repository: ".toList ++ owner ++ "/".toList ++ repo ++ "\n".toList
    ++ ("# Generated: ".toList ++ nowIso ++ "\n".toList)
    ++ ("# Total Files: ".toList ++ numberToString total ++ "\n\n".toList)
    ++ (RULE ++ "\n\n".toList)

/-- One turn of the loop of lines 311-326 on `(consolidatedContent, processedCount)`: a file
that is read adds its section and counts, a file whose read throws changes nothing. -/
def appendFile (w : World) (clonePath : Path) (acc : Str × Nat) (filePath : Str) : Str × Nat :=
  match w.readFile (pathJoin clonePath filePath) with
  | some content =>
    (acc.1 ++ ("FILE: ".toList ++ filePath ++ "\n".toList)
           ++ (RULE ++ "\n\n".toList)
           ++ content
           ++ ("\n\n".toList ++ RULE ++ "\n\n".toList),
     acc.2 + 1)
  | none => acc

/-- Lines 304-335 of `POST /api/generate`: the response built from the list
`filesToProcess`; `nowIso` is `new Date().toISOString()`. -/
def consolidate (nowIso : Str) (w : World) (clonePath : Path) (owner repo : Str)
    (todo : List Str) : Response :=
  let start := contentHeader owner repo nowIso todo.length
  let done := todo.foldl (appendFile w clonePath) (start, 0)
  .generated done.2 done.1 (owner ++ "-".toList ++ repo ++ "-consolidated.txt".toList)

/-- `POST /api/generate` (lines 261-341). -/
def generate (nowIso : Str) (w : World) (sessions : Sessions) (sessionId : Option Str)
    (selectedFiles : Option (List Str)) : Sessions × Response :=
  match sessionId with
  | none => (sessions, .error 400 (some "Session ID is required".toList))
  | some sid =>
    if sid = [] then (sessions, .error 400 (some "Session ID is required".toList))
    else
      let clonePath := pathJoin w.cloneDir sid
      if !w.access clonePath then (sessions, .error 404 (some "Clone not found".toList))
      else
        match resolveSession w sessions sid clonePath with
        | .error response => (sessions, response)
        | .ok (sessions1, session) =>
          (sessions1,
           consolidate nowIso w clonePath session.owner session.repo
             (filesToProcess session selectedFiles))

/-- `sessions.delete(key)`. -/
def Sessions.delete (m : Sessions) (key : Str) : Sessions :=
  m.filter (fun kv => kv.1 ≠ key)

/-- `DELETE /api/clone/:sessionId` (lines 242-258): the disk, the cache and the response.
When `fs.rm` throws, the cache entry stays and the answer is the error of the `catch`. -/
def deleteClone (w : World) (sessions : Sessions) (sessionId : Str) :
    World × Sessions × Response :=
  let clonePath := pathJoin w.cloneDir sessionId
  match w.rm clonePath with
  | some after => (after, Sessions.delete sessions sessionId, .success)
  | none => (w, sessions, .error 500 none)

/-- `GET /api/preview/<sessionId>/<filePath>` (lines 344-364); the two arguments are the
captures of the route pattern. -/
def previewFile (w : World) (sessionId filePath : Str) : Response :=
  let clonePath := pathJoin w.cloneDir sessionId
  match w.readFile (pathJoin clonePath filePath) with
  | some content =>
    let lines := split '\n' content
    .preview (join "\n".toList (slice lines 0 20)) lines.length (decide (lines.length > 20))
  | none => .error 500 none

/-! ## The consolidated text as the specification words it -/

/-- The header block: repository line, generation line, total line, a blank line, 80 `=`
characters, a blank line. -/
def specHeader (owner repo timestamp : Str) (total : Nat) : Str :=
  "# Repository: ".toList ++ owner ++ ['/'] ++ repo ++ ['\n']
    ++ "# Generated: ".toList ++ timestamp ++ ['\n']
    ++ "# Total Files: ".toList ++ numberToString total ++ ['\n']
    ++ ['\n'] ++ List.replicate 80 '=' ++ ['\n'] ++ ['\n']

/-- The section of one file that was read: the `FILE:` line, 80 `=` characters and a blank
line, the raw content, then a blank line, 80 `=` characters and a blank line. -/
def specSection (path content : Str) : Str :=
  "FILE: ".toList ++ path ++ ['\n']
    ++ List.replicate 80 '=' ++ ['\n'] ++ ['\n']
    ++ content
    ++ ['\n'] ++ ['\n'] ++ List.replicate 80 '=' ++ ['\n'] ++ ['\n']

/-- The sections of the paths in the given order; a path that cannot be read gives no text. -/
def specSections (read : Str → Option Str) : List Str → Str
  | [] => []
  | p :: ps =>
    match read p with
    | some content => specSection p content ++ specSections read ps
    | none => specSections read ps

end CodeFusion

namespace CodeFusion

/-! ## Lemmas on the string primitives -/

theorem split_ne_nil (sep : Char) (s : Str) : split sep s ≠ [] := by
  induction s with
  | nil => simp [split]
  | cons c cs ih =>
    unfold split
    split_ifs
    · simp
    · cases h : split sep cs with
      | nil => simp
      | cons p ps => simp

theorem split_append_sep (sep : Char) (a b : Str) :
    split sep (a ++ sep :: b) = split sep a ++ split sep b := by
  induction a with
  | nil => simp [split]
  | cons c cs ih =>
    by_cases hc : c = sep
    · simp [split, hc, ih]
    · cases h : split sep cs with
      | nil => exact absurd h (split_ne_nil sep cs)
      | cons p ps => simp [split, hc, ih, h]

theorem split_of_not_mem (sep : Char) (s : Str) (h : sep ∉ s) : split sep s = [s] := by
  induction s with
  | nil => simp [split]
  | cons c cs ih =>
    have hc : c ≠ sep := fun e => h (by simp [e])
    have hcs : sep ∉ cs := fun e => h (by simp [e])
    simp [split, hc, ih hcs]

theorem join_split (sep : Char) (s : Str) : join [sep] (split sep s) = s := by
  induction s with
  | nil => simp [split, join]
  | cons c cs ih =>
    by_cases hc : c = sep
    · cases h : split sep cs with
      | nil => exact absurd h (split_ne_nil sep cs)
      | cons p ps =>
        rw [h] at ih
        simp [split, hc, h, join, ih]
    · cases h : split sep cs with
      | nil => exact absurd h (split_ne_nil sep cs)
      | cons p ps =>
        rw [h] at ih
        cases ps with
        | nil => simp [split, hc, h, join] at ih ⊢; exact ih
        | cons q qs => simp [split, hc, h, join] at ih ⊢; exact ih

theorem slice_middle {α : Type} (a z : α) (mid : List α) :
    slice (a :: (mid ++ [z])) 1 (-1) = mid := by
  have h1 : relIndex (mid.length + 1 + 1) 1 = 1 := by
    simp [relIndex]
  have h2 : relIndex (mid.length + 1 + 1) (-1) = mid.length + 1 := by
    simp [relIndex]
  simp only [slice, List.length_cons, List.length_append, List.length_singleton,
    List.length_nil, Nat.zero_add, h1, h2]
  simp [List.take_append]

/-! ## Decimal digits and `parseInt` -/

theorem digitChar_toNat (d : Nat) (h : d < 10) : (digitChar d).toNat = 48 + d := by
  interval_cases d <;> rfl

theorem digitsValue_append (radix : Nat) (ds : List Nat) (d : Nat) :
    digitsValue radix (ds ++ [d]) = digitsValue radix ds * radix + d := by
  simp [digitsValue, List.foldl_append]

theorem toDecimal_spec (fuel : Nat) : ∀ n : Nat, n < fuel →
    toDecimal fuel n ≠ [] ∧ (∀ c ∈ toDecimal fuel n, 48 ≤ c.toNat ∧ c.toNat ≤ 57) ∧
    digitsValue 10 ((toDecimal fuel n).map (fun c => c.toNat - 48)) = n := by
  induction fuel with
  | zero => intro n h; omega
  | succ fuel ih =>
    intro n h
    unfold toDecimal
    by_cases hn : n < 10
    · simp only [hn, if_true]
      refine ⟨by simp, ?_, ?_⟩
      · intro c hc
        simp only [List.mem_singleton] at hc
        subst hc
        rw [digitChar_toNat n hn]
        omega
      · simp [digitsValue, digitChar_toNat n hn]
    · simp only [hn, if_false]
      have hlt : n / 10 < fuel := by omega
      obtain ⟨_, hd, hv⟩ := ih (n / 10) hlt
      have hm : n % 10 < 10 := Nat.mod_lt _ (by decide)
      refine ⟨by simp, ?_, ?_⟩
      · intro c hc
        rcases List.mem_append.mp hc with hc | hc
        · exact hd c hc
        · simp only [List.mem_singleton] at hc
          subst hc
          rw [digitChar_toNat _ hm]
          omega
      · rw [List.map_append, List.map_singleton, digitsValue_append, hv,
          digitChar_toNat _ hm]
        omega

theorem digitValue_decimal (c : Char) (h : 48 ≤ c.toNat ∧ c.toNat ≤ 57) :
    digitValue 10 c = some (c.toNat - 48) := by
  have h2 : c.toNat - 48 < 10 := by omega
  simp [digitValue, h, h2]

theorem leadingDigits_decimal (s : Str) (h : ∀ c ∈ s, 48 ≤ c.toNat ∧ c.toNat ≤ 57) :
    leadingDigits 10 s = s.map (fun c => c.toNat - 48) := by
  induction s with
  | nil => simp [leadingDigits]
  | cons c cs ih =>
    have hc := h c (by simp)
    have hcs : ∀ d ∈ cs, 48 ≤ d.toNat ∧ d.toNat ≤ 57 := fun d hd => h d (by simp [hd])
    simp [leadingDigits, digitValue_decimal c hc, ih hcs]

theorem isWhiteSpace_digit (c : Char) (h : 48 ≤ c.toNat ∧ c.toNat ≤ 57) :
    isWhiteSpace c = false := by
  simp only [isWhiteSpace, Bool.or_eq_false_iff, Bool.and_eq_false_iff, decide_eq_false_iff_not]
  omega

theorem ne_of_toNat_ne (c d : Char) (h : c.toNat ≠ d.toNat) : c ≠ d :=
  fun e => h (by rw [e])

theorem startsWith_zero_x (s : Str) (h : ∀ c ∈ s, 48 ≤ c.toNat ∧ c.toNat ≤ 57) (x : Char)
    (hx : x.toNat < 48 ∨ 57 < x.toNat) : startsWith s ['0', x] = false := by
  match s with
  | [] => simp [startsWith, List.isPrefixOf]
  | [a] => simp [startsWith, List.isPrefixOf]
  | a :: b :: r =>
    have hb := h b (by simp)
    have : x ≠ b := ne_of_toNat_ne _ _ (by omega)
    simp [startsWith, List.isPrefixOf, this]

theorem parseInt_decimal (s : Str) (hne : s ≠ [])
    (h : ∀ c ∈ s, 48 ≤ c.toNat ∧ c.toNat ≤ 57) :
    parseInt s = some (digitsValue 10 (s.map (fun c => c.toNat - 48)) : Int) := by
  obtain ⟨c, cs, rfl⟩ := List.exists_cons_of_ne_nil hne
  have hc := h c (by simp)
  have hws : isWhiteSpace c = false := isWhiteSpace_digit c hc
  have hminus : c ≠ '-' := ne_of_toNat_ne _ _ (by
    have : ('-' : Char).toNat = 45 := rfl
    omega)
  have hplus : c ≠ '+' := ne_of_toNat_ne _ _ (by
    have : ('+' : Char).toNat = 43 := rfl
    omega)
  have hx : startsWith (c :: cs) "0x".toList = false :=
    startsWith_zero_x _ h 'x' (Or.inr (by decide))
  have hX : startsWith (c :: cs) "0X".toList = false :=
    startsWith_zero_x _ h 'X' (Or.inr (by decide))
  have hd : List.dropWhile isWhiteSpace (c :: cs) = c :: cs := by
    simp [List.dropWhile, hws]
  unfold parseInt
  simp only [hd, List.head?_cons, Option.some.injEq, hminus, hplus, or_self, if_false, hx, hX,
    Bool.or_self, Bool.false_eq_true, leadingDigits_decimal _ h]
  simp

theorem parseInt_numberToString (n : Nat) : parseInt (numberToString n) = some (n : Int) := by
  obtain ⟨hne, hd, hv⟩ := toDecimal_spec (n + 1) n (Nat.lt_succ_self n)
  unfold numberToString
  rw [parseInt_decimal _ hne hd, hv]

theorem dash_not_mem_numberToString (n : Nat) : '-' ∉ numberToString n := by
  intro hmem
  have := (toDecimal_spec (n + 1) n (Nat.lt_succ_self n)).2.1 _ hmem
  have h45 : ('-' : Char).toNat = 45 := rfl
  omega

/-! ## Session identifier round trip -/

theorem split_makeSessionId (owner repo : Str) (t : Nat) (hown : '-' ∉ owner) :
    split '-' (makeSessionId owner repo t)
      = owner :: (split '-' repo ++ [numberToString t]) := by
  have hdash : "-".toList = ['-'] := rfl
  have hshape : makeSessionId owner repo t
      = owner ++ '-' :: (repo ++ '-' :: numberToString t) := by
    simp [makeSessionId, hdash]
  rw [hshape, split_append_sep, split_append_sep, split_of_not_mem _ _ hown,
    split_of_not_mem _ _ (dash_not_mem_numberToString t)]
  simp

/-- C1: for an owner without `-`, any repository name and a timestamp `t` with
`10^12 < t < 2^53`, the identifier `${owner}-${repo}-${t}` built by the clone endpoint is
accepted by the parsing of `getAllClonedRepos` and decodes to exactly `owner`, `repo`, `t`. -/
theorem decodeSessionId_makeSessionId (owner repo : Str) (t : Nat) (hown : '-' ∉ owner)
    (hlo : 10 ^ 12 < t) (_hhi : t < 2 ^ 53) :
    decodeSessionId (makeSessionId owner repo t)
      = some { owner := owner, repo := repo, clonedAt := (t : Int) } := by
  have hlen : 3 ≤ (owner :: (split '-' repo ++ [numberToString t])).length := by
    have := List.length_pos.mpr (split_ne_nil '-' repo)
    simp only [List.length_cons, List.length_append, List.length_singleton]
    omega
  have hlast : (owner :: (split '-' repo ++ [numberToString t])).getD
      ((owner :: (split '-' repo ++ [numberToString t])).length - 1) [] = numberToString t := by
    simp [List.getD_eq_getElem?_getD, List.getElem?_append_right]
  have hfloor : (t : Int) > TIMESTAMP_FLOOR := by
    unfold TIMESTAMP_FLOOR
    have : (10 : Nat) ^ 12 = 1000000000000 := by norm_num
    omega
  have hdash : "-".toList = ['-'] := rfl
  unfold decodeSessionId
  simp only [split_makeSessionId owner repo t hown, ge_iff_le, hlen, if_true, hlast,
    parseInt_numberToString, hfloor, slice_middle, hdash, join_split]
  simp

theorem decodeSessionId_makeSessionId_witness :
    '-' ∉ "acme".toList ∧
    decodeSessionId (makeSessionId "acme".toList "my-widgets".toList 1700000000000)
      = some { owner := "acme".toList, repo := "my-widgets".toList,
               clonedAt := 1700000000000 } :=
  ⟨by decide,
   decodeSessionId_makeSessionId "acme".toList "my-widgets".toList 1700000000000
     (by decide) (by norm_num) (by norm_num)⟩

/-! ## Owner returned by `parseGitHubUrl` -/

theorem matchHere_owner (s owner repo : Str) (h : matchHere s = some (owner, repo)) :
    owner ≠ [] ∧ '/' ∉ owner := by
  unfold matchHere at h
  dsimp only at h
  split_ifs at h with hp ho
  split at h
  · split_ifs at h
    split at h
    · simp only [Option.some.injEq, Prod.mk.injEq] at h
      obtain ⟨h1, _⟩ := h
      subst h1
      refine ⟨ho, fun hmem => ?_⟩
      have := List.mem_takeWhile_imp hmem
      simp at this
    · exact absurd h (by simp)
  · exact absurd h (by simp)

/-- C2 fails as stated: `parseGitHubUrl` accepts `https://github.com/foo-bar/baz` and returns
the owner `foo-bar`, which contains `-`. -/
theorem parseGitHubUrl_owner_with_dash :
    parseGitHubUrl "https://github.com/foo-bar/baz".toList
      = some ("foo-bar".toList, "baz".toList) ∧ '-' ∈ "foo-bar".toList := by
  decide

/-- C2, amended: for every URL that `parseGitHubUrl` accepts, the owner it returns is not
empty and contains no `/`. -/
theorem parseGitHubUrl_owner (url owner repo : Str)
    (h : parseGitHubUrl url = some (owner, repo)) : owner ≠ [] ∧ '/' ∉ owner := by
  induction url with
  | nil =>
    simp only [parseGitHubUrl] at h
    exact matchHere_owner _ _ _ h
  | cons c cs ih =>
    simp only [parseGitHubUrl] at h
    cases hm : matchHere (c :: cs) with
    | some m =>
      rw [hm] at h
      simp only [Option.some.injEq] at h
      subst h
      exact matchHere_owner _ _ _ hm
    | none =>
      rw [hm] at h
      exact ih h

theorem parseGitHubUrl_owner_witness :
    parseGitHubUrl "https://github.com/foo-bar/baz.git".toList
      = some ("foo-bar".toList, "baz".toList) ∧
    "foo-bar".toList ≠ [] ∧ '/' ∉ "foo-bar".toList :=
  ⟨by decide,
   parseGitHubUrl_owner "https://github.com/foo-bar/baz.git".toList "foo-bar".toList
     "baz".toList (by decide)⟩

/-! ## Listing of the clone registry -/

theorem decodeSessionId_eq_none (name : Str)
    (h : (split '-' name).length < 3 ∨ parseInt (finalComponent name) = none ∨
      ∃ n : Int, parseInt (finalComponent name) = some n ∧ n ≤ 1000000000000) :
    decodeSessionId name = none := by
  unfold decodeSessionId
  unfold finalComponent at h
  dsimp only
  split_ifs with hlen
  · rcases h with h | h | ⟨n, h, hn⟩
    · omega
    · rw [h]
    · rw [h]
      have : ¬ n > TIMESTAMP_FLOOR := by unfold TIMESTAMP_FLOOR; omega
      simp [this]
  · rfl

theorem collectRepos_decodes :
    ∀ (entries : Entries) (r : RepoSummary), r ∈ collectRepos entries →
      decodeSessionId r.sessionId ≠ none
  | .nil, r, h => by simp [collectRepos] at h
  | .cons name (.file _ _) rest, r, h => by
    simp only [collectRepos] at h
    exact collectRepos_decodes rest r h
  | .cons name (.dir size readable children) rest, r, h => by
    simp only [collectRepos] at h
    split at h
    · rename_i found heq
      rcases List.mem_cons.mp h with h | h
      · subst h
        split_ifs at heq
        split at heq
        · rename_i d hd
          split at heq
          · simp only [Option.some.injEq] at heq
            subst heq
            simp [hd]
          · exact absurd heq (by simp)
        · exact absurd heq (by simp)
      · exact collectRepos_decodes rest r h
    · exact collectRepos_decodes rest r h

theorem mem_sortBy {α : Type} (compare : α → α → Int) (xs : List α) (x : α) :
    x ∈ sortBy compare xs ↔ x ∈ xs :=
  (List.perm_insertionSort _ xs).mem_iff

/-- C3 fails as stated: the directory `a-b-1700000000000x` has a final component that is not a
decimal integer, yet `getAllClonedRepos` reports it (with `clonedAt` 1700000000000). -/
theorem getAllClonedRepos_reports_trailing_garbage :
    isDecimalInteger (finalComponent "a-b-1700000000000x".toList) = false ∧
    getAllClonedRepos
        { root := .dir 4096 true (.cons "cloned_repos".toList
            (.dir 4096 true (.cons "a-b-1700000000000x".toList (.dir 4096 true .nil) .nil))
            .nil)
          cloneDir := { segs := ["cloned_repos".toList], trailing := false } }
      = [{ sessionId := "a-b-1700000000000x".toList, owner := "a".toList, repo := "b".toList,
           clonedAt := 1700000000000, totalFiles := 0, size := 4096 }] := by
  decide

/-- C3, amended: a directory name that splits on `-` into fewer than 3 components, or whose
final component `parseInt` turns into `NaN` or into a number at most 1_000_000_000_000, is the
`sessionId` of no entry of the list `getAllClonedRepos` returns. -/
theorem getAllClonedRepos_skips_undecodable (w : World) (name : Str)
    (h : (split '-' name).length < 3 ∨ parseInt (finalComponent name) = none ∨
      ∃ n : Int, parseInt (finalComponent name) = some n ∧ n ≤ 1000000000000) :
    ∀ r ∈ getAllClonedRepos w, r.sessionId ≠ name := by
  intro r hr heq
  unfold getAllClonedRepos at hr
  split at hr
  · rw [mem_sortBy] at hr
    exact collectRepos_decodes _ r hr (heq ▸ decodeSessionId_eq_none name h)
  · simp at hr

theorem getAllClonedRepos_skips_undecodable_witness :
    getAllClonedRepos
        { root := .dir 4096 true (.cons "cloned_repos".toList
            (.dir 4096 true
              (.cons "a-b-999".toList (.dir 4096 true .nil)
                (.cons "acme-widgets-1700000000000".toList (.dir 4096 true .nil) .nil)))
            .nil)
          cloneDir := { segs := ["cloned_repos".toList], trailing := false } }
      = [{ sessionId := "acme-widgets-1700000000000".toList, owner := "acme".toList,
           repo := "widgets".toList, clonedAt := 1700000000000, totalFiles := 0,
           size := 4096 }] ∧
    "acme-widgets-1700000000000".toList ≠ "a-b-999".toList :=
  ⟨by decide,
   getAllClonedRepos_skips_undecodable
     { root := .dir 4096 true (.cons "cloned_repos".toList
         (.dir 4096 true
           (.cons "a-b-999".toList (.dir 4096 true .nil)
             (.cons "acme-widgets-1700000000000".toList (.dir 4096 true .nil) .nil)))
         .nil)
       cloneDir := { segs := ["cloned_repos".toList], trailing := false } }
     "a-b-999".toList
     (Or.inr (Or.inr ⟨999, by decide, by decide⟩))
     { sessionId := "acme-widgets-1700000000000".toList, owner := "acme".toList,
       repo := "widgets".toList, clonedAt := 1700000000000, totalFiles := 0, size := 4096 }
     (by decide)⟩

theorem sortBy_compareRepos_sorted (xs : List RepoSummary) :
    List.Pairwise (fun a b => a.clonedAt ≥ b.clonedAt) (sortBy compareRepos xs) := by
  haveI : IsTotal RepoSummary (fun a b => compareRepos a b ≤ 0) :=
    ⟨fun a b => by unfold compareRepos; omega⟩
  haveI : IsTrans RepoSummary (fun a b => compareRepos a b ≤ 0) :=
    ⟨fun a b c hab hbc => by unfold compareRepos at *; omega⟩
  have hsorted := List.sorted_insertionSort (fun a b => compareRepos a b ≤ 0) xs
  refine List.Pairwise.imp ?_ hsorted
  intro a b hab
  unfold compareRepos at hab
  omega

/-- C6: the list `getAllClonedRepos` returns is in non-increasing order of `clonedAt` (each
entry is at least as new as the one after it) and is a permutation of the entries collected
by the loop before sorting. -/
theorem getAllClonedRepos_sorted_perm (w : World) :
    List.Chain' (fun a b => a.clonedAt ≥ b.clonedAt) (getAllClonedRepos w) ∧
    List.Perm (getAllClonedRepos w)
      (match cloneDirEntries w with
       | some entries => collectRepos entries
       | none => []) := by
  unfold getAllClonedRepos
  cases cloneDirEntries w with
  | none => exact ⟨List.chain'_nil, List.Perm.refl _⟩
  | some entries =>
    exact ⟨(sortBy_compareRepos_sorted _).chain', List.perm_insertionSort _ _⟩

/-! ## Loading and generating for an existing directory -/

/-- C4, the code at the failing input: the directory `a-b-c` exists under the clone root and
its final component `c` is not a number, so the identifier does not decode; `GET
/api/clone/a-b-c` nevertheless answers with the success payload (owner `a`, repo `b`) and
caches a session whose `createdAt` is `NaN`. -/
theorem loadClone_accepts_undecodable :
    decodeSessionId "a-b-c".toList = none ∧
    loadClone
        { root := .dir 4096 true (.cons "cloned_repos".toList
            (.dir 4096 true (.cons "a-b-c".toList
              (.dir 4096 true (.cons "x.txt".toList (.file (some 2) (some "hi".toList)) .nil))
              .nil))
            .nil)
          cloneDir := { segs := ["cloned_repos".toList], trailing := false } }
        [] "a-b-c".toList
      = ([("a-b-c".toList,
            { clonePath := { segs := ["cloned_repos".toList, "a-b-c".toList], trailing := false }
              repoUrl := none, owner := "a".toList, repo := "b".toList
              files := [{ path := "x.txt".toList, size := 2 }], createdAt := none })],
         .cloneInfo "a-b-c".toList "a".toList "b".toList 1
           [{ path := "x.txt".toList, size := 2 }]) := by
  decide

/-- C5, the code at the failing input: for the uncached identifier
`acme-my-widgets-1700000000000`, `POST /api/generate` takes `my` as the repository (file name
`acme-my-consolidated.txt`, header `# Repository: acme/my`), while `GET /api/clone/:sessionId`
returns the repository `my-widgets` for the same identifier. -/
theorem generate_truncates_repo :
    (generate "2024-01-01T00:00:00.000Z".toList
        { root := .dir 4096 true (.cons "cloned_repos".toList
            (.dir 4096 true (.cons "acme-my-widgets-1700000000000".toList
              (.dir 4096 true .nil) .nil))
            .nil)
          cloneDir := { segs := ["cloned_repos".toList], trailing := false } }
        [] (some "acme-my-widgets-1700000000000".toList) none).2
      = .generated 0
          (contentHeader "acme".toList "my".toList "2024-01-01T00:00:00.000Z".toList 0)
          "acme-my-consolidated.txt".toList ∧
    (loadClone
        { root := .dir 4096 true (.cons "cloned_repos".toList
            (.dir 4096 true (.cons "acme-my-widgets-1700000000000".toList
              (.dir 4096 true .nil) .nil))
            .nil)
          cloneDir := { segs := ["cloned_repos".toList], trailing := false } }
        [] "acme-my-widgets-1700000000000".toList).2
      = .cloneInfo "acme-my-widgets-1700000000000".toList "acme".toList "my-widgets".toList 0
          [] := by
  decide

/-! ## Filesystem walker: lemmas -/

theorem split_join (sep : Char) : ∀ (parts : List Str), parts ≠ [] →
    (∀ p ∈ parts, sep ∉ p) → split sep (join [sep] parts) = parts
  | [], hne, _ => absurd rfl hne
  | [p], _, h => by
    simp only [join]
    exact split_of_not_mem sep p (h p (by simp))
  | p :: q :: ps, _, h => by
    have hp : sep ∉ p := h p (by simp)
    have ih := split_join sep (q :: ps) (by simp) (fun x hx => h x (by simp [hx]))
    have hshape : join [sep] (p :: q :: ps) = p ++ sep :: join [sep] (q :: ps) := by
      simp [join]
    rw [hshape, split_append_sep, split_of_not_mem sep p hp, ih]
    simp

theorem not_mem_join (c : Char) (sep : Str) (hsep : c ∉ sep) : ∀ (parts : List Str),
    (∀ p ∈ parts, c ∉ p) → c ∉ join sep parts
  | [], _ => by simp [join]
  | [p], h => by
    simp only [join]
    exact h p (by simp)
  | p :: q :: ps, h => by
    have ih := not_mem_join c sep hsep (q :: ps) (fun x hx => h x (by simp [hx]))
    have hp : c ∉ p := h p (by simp)
    simp only [join, List.mem_append, not_or]
    exact ⟨⟨hp, hsep⟩, ih⟩

theorem replaceBackslashes_of_not_mem (s : Str) (h : '\\' ∉ s) : replaceBackslashes s = s := by
  induction s with
  | nil => rfl
  | cons c cs ih =>
    have hc : c ≠ '\\' := fun e => h (by simp [e])
    have hcs : '\\' ∉ cs := fun e => h (by simp [e])
    have := ih hcs
    unfold replaceBackslashes at this ⊢
    simp [hc, this]

theorem plainName_iff (name : Str) : plainName name = true ↔ '/' ∉ name ∧ '\\' ∉ name := by
  simp [plainName]

theorem find_cons_of_hasName (name n : Str) (node : Node) (rest : Entries)
    (hn : rest.hasName n = true) (hname : rest.hasName name = false) :
    (Entries.cons name node rest).find n = rest.find n := by
  have hne : name ≠ n := by
    intro e
    rw [e, hn] at hname
    exact absurd hname (by simp)
  simp [Entries.find, hne]

theorem traverse_isSome (ex : List Str) :
    ∀ (es : Entries) (pre : List Str), (traverse ex pre es).isSome = es.walkable ex
  | .nil, pre => by simp [traverse, Entries.walkable]
  | .cons name (.file size content) rest, pre => by
    have ih := traverse_isSome ex rest pre
    cases size with
    | none => simp [traverse, Entries.walkable]
    | some bytes =>
      cases hr : traverse ex pre rest with
      | none => rw [hr] at ih; simp [traverse, Entries.walkable, hr, ← ih]
      | some later => rw [hr] at ih; simp [traverse, Entries.walkable, hr, ← ih]
  | .cons name (.dir size readable children) rest, pre => by
    have ih1 := traverse_isSome ex children (pre ++ [name])
    have ih2 := traverse_isSome ex rest pre
    by_cases hex : includes ex name = true
    · simp [traverse, Entries.walkable, hex, ih2]
    · simp only [Bool.not_eq_true] at hex
      cases readable with
      | false => simp [traverse, Entries.walkable, hex]
      | true =>
        cases hi : traverse ex (pre ++ [name]) children with
        | none => rw [hi] at ih1; simp [traverse, Entries.walkable, hex, hi, ← ih1]
        | some inner =>
          rw [hi] at ih1
          cases hr : traverse ex pre rest with
          | none => rw [hr] at ih2; simp [traverse, Entries.walkable, hex, hi, hr, ← ih1, ← ih2]
          | some later =>
            rw [hr] at ih2; simp [traverse, Entries.walkable, hex, hi, hr, ← ih1, ← ih2]

theorem distinctNames_cons (name : Str) (node : Node) (rest : Entries)
    (h : (Entries.cons name node rest).distinctNames = true) :
    rest.hasName name = false ∧ rest.distinctNames = true := by
  cases node with
  | file size content =>
    simp only [Entries.distinctNames, Bool.and_eq_true, Bool.not_eq_true'] at h
    exact ⟨h.1, h.2⟩
  | dir size readable children =>
    simp only [Entries.distinctNames, Bool.and_eq_true, Bool.not_eq_true'] at h
    exact ⟨h.1.1, h.2⟩

theorem RecordsEntry.lift (ex pre : List Str) (name : Str) (node : Node) (rest : Entries)
    (f : FileInfo) (h : RecordsEntry ex pre rest f) :
    RecordsEntry ex pre (.cons name node rest) f := by
  obtain ⟨n, tail, hpath, hdirs, hplain, hhas, hfind⟩ := h
  refine ⟨n, tail, hpath, hdirs, hplain, by simp [Entries.hasName, hhas], ?_⟩
  intro hdist
  obtain ⟨hfresh, hrest⟩ := distinctNames_cons name node rest hdist
  obtain ⟨target, c, h1, h2⟩ := hfind hrest
  exact ⟨target, c, by rw [find_cons_of_hasName name n node rest hhas hfresh]; exact h1, h2⟩

theorem traverse_sound (ex : List Str) :
    ∀ (es : Entries) (pre : List Str) (m : List FileInfo) (f : FileInfo),
      es.plainNames = true → traverse ex pre es = some m → f ∈ m → RecordsEntry ex pre es f
  | .nil, pre, m, f, _, ht, hf => by
    simp only [traverse, Option.some.injEq] at ht
    subst ht
    simp at hf
  | .cons name (.file size content) rest, pre, m, f, hp, ht, hf => by
    simp only [Entries.plainNames, Bool.and_eq_true] at hp
    simp only [traverse] at ht
    cases size with
    | none => simp at ht
    | some bytes =>
      cases hr : traverse ex pre rest with
      | none => simp [hr] at ht
      | some later =>
        simp only [hr, Option.some.injEq] at ht
        subst ht
        rcases List.mem_cons.mp hf with hf | hf
        · subst hf
          refine ⟨name, [], rfl, by simp, by simpa using hp.1, by simp [Entries.hasName], ?_⟩
          intro _
          exact ⟨.file (some bytes) content, content, by simp [Entries.find], rfl⟩
        · exact (traverse_sound ex rest pre later f hp.2 hr hf).lift ex pre name _ rest f
  | .cons name (.dir size readable children) rest, pre, m, f, hp, ht, hf => by
    simp only [Entries.plainNames, Bool.and_eq_true] at hp
    simp only [traverse] at ht
    by_cases hex : includes ex name = true
    · simp only [hex, Bool.not_true, Bool.false_eq_true, if_false] at ht
      exact (traverse_sound ex rest pre m f hp.2 ht hf).lift ex pre name _ rest f
    · simp only [Bool.not_eq_true] at hex
      simp only [hex, Bool.not_false, if_true] at ht
      cases readable with
      | false => simp at ht
      | true =>
        simp only [if_true] at ht
        cases hi : traverse ex (pre ++ [name]) children with
        | none => simp [hi] at ht
        | some inner =>
          cases hr : traverse ex pre rest with
          | none => simp [hi, hr] at ht
          | some later =>
            simp only [hi, hr, Option.some.injEq] at ht
            subst ht
            rcases List.mem_append.mp hf with hf | hf
            · obtain ⟨n, tail, hpath, hdirs, hplain, hhas, hfind⟩ :=
                traverse_sound ex children (pre ++ [name]) inner f hp.1.2 hi hf
              refine ⟨name, n :: tail, ?_, ?_, ?_, by simp [Entries.hasName], ?_⟩
              · rw [hpath]
                simp
              · intro d hd
                simp only [List.dropLast_cons₂, List.mem_cons] at hd
                rcases hd with hd | hd
                · rw [hd]; exact hex
                · exact hdirs d (by simpa using hd)
              · intro d hd
                rcases List.mem_cons.mp hd with hd | hd
                · rw [hd]; exact hp.1.1
                · exact hplain d hd
              · intro hdist
                simp only [Entries.distinctNames, Bool.and_eq_true] at hdist
                obtain ⟨target, c, h1, h2⟩ := hfind hdist.1.2
                refine ⟨.dir size true children, c, by simp [Entries.find], ?_⟩
                simp [Node.walk, h1, h2]
            · exact (traverse_sound ex rest pre later f hp.2 hr hf).lift ex pre name _ rest f

theorem path_of_plain (comps : List Str) (hne : comps ≠ [])
    (hplain : ∀ d ∈ comps, plainName d = true) :
    replaceBackslashes (join "/".toList comps) = join ['/'] comps ∧
    split '/' (join ['/'] comps) = comps := by
  have hslash : "/".toList = ['/'] := rfl
  have hno : ∀ d ∈ comps, '/' ∉ d ∧ '\\' ∉ d :=
    fun d hd => (plainName_iff d).mp (hplain d hd)
  refine ⟨?_, split_join '/' comps hne (fun d hd => (hno d hd).1)⟩
  rw [hslash]
  exact replaceBackslashes_of_not_mem _
    (not_mem_join '\\' ['/'] (by decide) comps (fun d hd => (hno d hd).2))

theorem getAllFiles_components (ex : List Str) (size : Nat) (readable : Bool)
    (entries : Entries) (m : List FileInfo) (hplain : entries.plainNames = true)
    (hwalk : getAllFiles (some (.dir size readable entries)) ex = some m) :
    ∀ f ∈ m, ∀ d ∈ (split '/' f.path).dropLast, d ∉ ex := by
  intro f hf d hd
  cases readable with
  | false => simp [getAllFiles] at hwalk
  | true =>
    simp only [getAllFiles] at hwalk
    obtain ⟨n, tail, hpath, hdirs, hnames, _, _⟩ :=
      traverse_sound ex entries [] m f hplain hwalk hf
    obtain ⟨h1, h2⟩ := path_of_plain (n :: tail) (by simp) hnames
    rw [List.nil_append] at hpath
    rw [hpath, h1, h2] at hd
    have := hdirs d hd
    simpa [includes] using this

/-- C7 fails as stated: a regular file named `.git\config` (one name, with a backslash) in the
root is recorded under the path `.git/config`, whose directory component is `.git`. -/
theorem getAllFiles_backslash_name_under_git :
    getAllFiles
        (some (.dir 4096 true (.cons ".git\\config".toList (.file (some 5) none) .nil)))
        DEFAULT_EXCLUDE_DIRS
      = some [{ path := ".git/config".toList, size := 5 }] ∧
    ".git".toList ∈ (split '/' ".git/config".toList).dropLast ∧
    ".git".toList ∈ DEFAULT_EXCLUDE_DIRS := by
  decide

/-- C7, amended: for every directory tree whose entry names contain neither `/` nor a
backslash, no path of the manifest `getAllFiles` returns with the default exclusion list has
`.git`, `node_modules`, `.next`, `dist` or `build` as a directory component. -/
theorem getAllFiles_avoids_excluded (size : Nat) (readable : Bool) (entries : Entries)
    (m : List FileInfo) (hplain : entries.plainNames = true)
    (hwalk : getAllFiles (some (.dir size readable entries)) DEFAULT_EXCLUDE_DIRS = some m) :
    ∀ f ∈ m, ∀ d ∈ (split '/' f.path).dropLast, d ∉ DEFAULT_EXCLUDE_DIRS :=
  getAllFiles_components DEFAULT_EXCLUDE_DIRS size readable entries m hplain hwalk

theorem getAllFiles_avoids_excluded_witness :
    getAllFiles
        (some (.dir 4096 true
          (.cons ".git".toList
            (.dir 4096 true (.cons "config".toList (.file (some 9) none) .nil))
            (.cons "src".toList
              (.dir 4096 true (.cons "a.js".toList (.file (some 3) none) .nil))
              (.cons "node_modules".toList
                (.dir 4096 true (.cons "x".toList
                  (.dir 4096 true (.cons "y.js".toList (.file (some 7) none) .nil)) .nil))
                .nil)))))
        DEFAULT_EXCLUDE_DIRS
      = some [{ path := "src/a.js".toList, size := 3 }] ∧
    "src".toList ∉ DEFAULT_EXCLUDE_DIRS :=
  ⟨by decide,
   getAllFiles_avoids_excluded 4096 true
     (.cons ".git".toList
       (.dir 4096 true (.cons "config".toList (.file (some 9) none) .nil))
       (.cons "src".toList
         (.dir 4096 true (.cons "a.js".toList (.file (some 3) none) .nil))
         (.cons "node_modules".toList
           (.dir 4096 true (.cons "x".toList
             (.dir 4096 true (.cons "y.js".toList (.file (some 7) none) .nil)) .nil))
           .nil)))
     [{ path := "src/a.js".toList, size := 3 }] (by decide) (by decide)
     { path := "src/a.js".toList, size := 3 } (by decide) "src".toList (by decide)⟩

theorem traverse_complete (ex : List Str) :
    ∀ (es : Entries) (pre : List Str) (m : List FileInfo),
      es.plainNames = true → traverse ex pre es = some m →
      ∀ (n : Str) (tail : List Str) (node : Node) (sz : Option Nat) (c : Option Str),
        es.find n = some node → node.walk tail = some (.file sz c) →
        (∀ d ∈ (n :: tail).dropLast, includes ex d = false) →
        ∃ bytes, sz = some bytes ∧
          ({ path := replaceBackslashes (join "/".toList (pre ++ n :: tail)), size := bytes }
            : FileInfo) ∈ m ∧
          ∀ d ∈ n :: tail, plainName d = true
  | .nil, pre, m, _, _, n, tail, node, sz, c, hfind, _, _ => by
    simp [Entries.find] at hfind
  | .cons name (.file size content) rest, pre, m, hp, ht, n, tail, node, sz, c, hfind, hw,
      hdirs => by
    simp only [Entries.plainNames, Bool.and_eq_true] at hp
    simp only [traverse] at ht
    cases size with
    | none => simp at ht
    | some bytes =>
      cases hr : traverse ex pre rest with
      | none => simp [hr] at ht
      | some later =>
        simp only [hr, Option.some.injEq] at ht
        subst ht
        by_cases hn : name = n
        · subst hn
          simp only [Entries.find, if_true, Option.some.injEq] at hfind
          subst hfind
          cases tail with
          | nil =>
            simp only [Node.walk, Option.some.injEq, Node.file.injEq] at hw
            refine ⟨bytes, hw.1.symm, by simp, ?_⟩
            intro d hd
            simp only [List.mem_singleton] at hd
            rw [hd]; exact hp.1
          | cons t ts => simp [Node.walk] at hw
        · simp only [Entries.find, hn, if_false] at hfind
          obtain ⟨b, hb, hmem, hplain⟩ :=
            traverse_complete ex rest pre later hp.2 hr n tail node sz c hfind hw hdirs
          exact ⟨b, hb, List.mem_cons_of_mem _ hmem, hplain⟩
  | .cons name (.dir size readable children) rest, pre, m, hp, ht, n, tail, node, sz, c,
      hfind, hw, hdirs => by
    simp only [Entries.plainNames, Bool.and_eq_true] at hp
    simp only [traverse] at ht
    by_cases hn : name = n
    · subst hn
      simp only [Entries.find, if_true, Option.some.injEq] at hfind
      subst hfind
      cases tail with
      | nil => simp [Node.walk] at hw
      | cons t ts =>
        have hex : includes ex name = false := hdirs name (by simp)
        simp only [hex, Bool.not_false, if_true] at ht
        cases readable with
        | false => simp at ht
        | true =>
          simp only [if_true] at ht
          cases hi : traverse ex (pre ++ [name]) children with
          | none => simp [hi] at ht
          | some inner =>
            cases hr : traverse ex pre rest with
            | none => simp [hi, hr] at ht
            | some later =>
              simp only [hi, hr, Option.some.injEq] at ht
              subst ht
              simp only [Node.walk] at hw
              cases hc : children.find t with
              | none => simp [hc] at hw
              | some child =>
                simp only [hc] at hw
                obtain ⟨b, hb, hmem, hplain⟩ :=
                  traverse_complete ex children (pre ++ [name]) inner hp.1.2 hi t ts child sz c
                    hc hw (fun d hd => hdirs d (by
                      simp only [List.dropLast_cons₂, List.mem_cons]
                      exact Or.inr (by simpa using hd)))
                refine ⟨b, hb, List.mem_append_left _ (by simpa using hmem), ?_⟩
                intro d hd
                rcases List.mem_cons.mp hd with hd | hd
                · rw [hd]; exact hp.1.1
                · exact hplain d hd
    · simp only [Entries.find, hn, if_false] at hfind
      by_cases hex : includes ex name = true
      · simp only [hex, Bool.not_true, Bool.false_eq_true, if_false] at ht
        exact traverse_complete ex rest pre m hp.2 ht n tail node sz c hfind hw hdirs
      · simp only [Bool.not_eq_true] at hex
        simp only [hex, Bool.not_false, if_true] at ht
        cases readable with
        | false => simp at ht
        | true =>
          simp only [if_true] at ht
          cases hi : traverse ex (pre ++ [name]) children with
          | none => simp [hi] at ht
          | some inner =>
            cases hr : traverse ex pre rest with
            | none => simp [hi, hr] at ht
            | some later =>
              simp only [hi, hr, Option.some.injEq] at ht
              subst ht
              obtain ⟨b, hb, hmem, hplain⟩ :=
                traverse_complete ex rest pre later hp.2 hr n tail node sz c hfind hw hdirs
              exact ⟨b, hb, List.mem_append_right _ hmem, hplain⟩

theorem RecordsEntry.split_path (ex pre : List Str) (es : Entries) (f : FileInfo)
    (hpre : ∀ d ∈ pre, plainName d = true) (h : RecordsEntry ex pre es f) :
    ∃ n tail, es.hasName n = true ∧ split '/' f.path = pre ++ n :: tail := by
  obtain ⟨n, tail, hpath, _, hplain, hhas, _⟩ := h
  have hall : ∀ d ∈ pre ++ n :: tail, plainName d = true := by
    intro d hd
    rcases List.mem_append.mp hd with hd | hd
    · exact hpre d hd
    · exact hplain d hd
  obtain ⟨h1, h2⟩ := path_of_plain (pre ++ n :: tail) (by simp) hall
  exact ⟨n, tail, hhas, by rw [hpath, h1, h2]⟩

theorem traverse_nodup (ex : List Str) :
    ∀ (es : Entries) (pre : List Str) (m : List FileInfo),
      es.plainNames = true → es.distinctNames = true → (∀ d ∈ pre, plainName d = true) →
      traverse ex pre es = some m → (m.map (fun f => f.path)).Nodup
  | .nil, pre, m, _, _, _, ht => by
    simp only [traverse, Option.some.injEq] at ht
    subst ht
    simp
  | .cons name (.file size content) rest, pre, m, hp, hd, hpre, ht => by
    simp only [Entries.plainNames, Bool.and_eq_true] at hp
    simp only [Entries.distinctNames, Bool.and_eq_true, Bool.not_eq_true'] at hd
    simp only [traverse] at ht
    cases size with
    | none => simp at ht
    | some bytes =>
      cases hr : traverse ex pre rest with
      | none => simp [hr] at ht
      | some later =>
        simp only [hr, Option.some.injEq] at ht
        subst ht
        have ih := traverse_nodup ex rest pre later hp.2 hd.2 hpre hr
        simp only [List.map_cons, List.nodup_cons]
        refine ⟨?_, ih⟩
        intro hmem
        obtain ⟨g, hg, hgp⟩ := List.mem_map.mp hmem
        obtain ⟨n, tail, hhas, hsplit⟩ :=
          (traverse_sound ex rest pre later g hp.2 hr hg).split_path ex pre rest g hpre
        have hall : ∀ d ∈ pre ++ [name], plainName d = true := by
          intro d hd
          rcases List.mem_append.mp hd with hd | hd
          · exact hpre d hd
          · simp only [List.mem_singleton] at hd
            rw [hd]; exact hp.1
        obtain ⟨h1, h2⟩ := path_of_plain (pre ++ [name]) (by simp) hall
        rw [hgp, h1, h2] at hsplit
        have := List.append_cancel_left hsplit
        simp only [List.cons.injEq] at this
        rw [← this.1, hd.1] at hhas
        exact absurd hhas (by simp)
  | .cons name (.dir size readable children) rest, pre, m, hp, hd, hpre, ht => by
    simp only [Entries.plainNames, Bool.and_eq_true] at hp
    simp only [Entries.distinctNames, Bool.and_eq_true, Bool.not_eq_true'] at hd
    simp only [traverse] at ht
    by_cases hex : includes ex name = true
    · simp only [hex, Bool.not_true, Bool.false_eq_true, if_false] at ht
      exact traverse_nodup ex rest pre m hp.2 hd.2 hpre ht
    · simp only [Bool.not_eq_true] at hex
      simp only [hex, Bool.not_false, if_true] at ht
      cases readable with
      | false => simp at ht
      | true =>
        simp only [if_true] at ht
        cases hi : traverse ex (pre ++ [name]) children with
        | none => simp [hi] at ht
        | some inner =>
          cases hr : traverse ex pre rest with
          | none => simp [hi, hr] at ht
          | some later =>
            simp only [hi, hr, Option.some.injEq] at ht
            subst ht
            have hpre2 : ∀ d ∈ pre ++ [name], plainName d = true := by
              intro d hd
              rcases List.mem_append.mp hd with hd | hd
              · exact hpre d hd
              · simp only [List.mem_singleton] at hd
                rw [hd]; exact hp.1.1
            have ih1 := traverse_nodup ex children (pre ++ [name]) inner hp.1.2 hd.1.2 hpre2 hi
            have ih2 := traverse_nodup ex rest pre later hp.2 hd.2 hpre hr
            rw [List.map_append, List.nodup_append]
            refine ⟨ih1, ih2, ?_⟩
            intro q hq1 hq2
            obtain ⟨g1, hg1, hgp1⟩ := List.mem_map.mp hq1
            obtain ⟨g2, hg2, hgp2⟩ := List.mem_map.mp hq2
            obtain ⟨n1, t1, _, hs1⟩ :=
              (traverse_sound ex children (pre ++ [name]) inner g1 hp.1.2 hi hg1).split_path
                ex (pre ++ [name]) children g1 hpre2
            obtain ⟨n2, t2, hhas2, hs2⟩ :=
              (traverse_sound ex rest pre later g2 hp.2 hr hg2).split_path ex pre rest g2 hpre
            rw [hgp1] at hs1
            rw [hgp2, hs1, List.append_assoc] at hs2
            have := List.append_cancel_left hs2
            simp only [List.singleton_append, List.cons.injEq] at this
            rw [← this.1, hd.1.1] at hhas2
            exact absurd hhas2 (by simp)

/-- C8 fails as stated: the root holds one regular file, named `a\b` (5 bytes).  Its path
relative to the root is the single name `a\b`, but the manifest records `a/b`, a path at which
the tree has no entry. -/
theorem getAllFiles_backslash_name_misrecorded :
    (Node.dir 4096 true (.cons "a\\b".toList (.file (some 5) none) .nil)).walk ["a\\b".toList]
      = some (.file (some 5) none) ∧
    getAllFiles (some (.dir 4096 true (.cons "a\\b".toList (.file (some 5) none) .nil)))
        DEFAULT_EXCLUDE_DIRS
      = some [{ path := "a/b".toList, size := 5 }] ∧
    ({ path := join ['/'] ["a\\b".toList], size := 5 } : FileInfo)
      ∉ [({ path := "a/b".toList, size := 5 } : FileInfo)] ∧
    (Node.dir 4096 true (.cons "a\\b".toList (.file (some 5) none) .nil)).walk
        (split '/' "a/b".toList) = none := by
  decide

/-- C8, amended: for a directory tree whose entry names contain neither `/` nor a backslash
and are distinct within each directory, the manifest `getAllFiles` returns holds, for every
non-directory entry that is not beneath an excluded directory, a record with the `/`-joined
path of the entry relative to the root and with its size in bytes; every record of the
manifest is such an entry; and no path occurs twice. -/
theorem getAllFiles_manifest (size : Nat) (readable : Bool) (entries : Entries)
    (m : List FileInfo) (hplain : entries.plainNames = true)
    (hdistinct : entries.distinctNames = true)
    (hwalk : getAllFiles (some (.dir size readable entries)) DEFAULT_EXCLUDE_DIRS = some m) :
    (∀ (comps : List Str) (sz : Option Nat) (c : Option Str), comps ≠ [] →
        (Node.dir size readable entries).walk comps = some (.file sz c) →
        (∀ d ∈ comps.dropLast, d ∉ DEFAULT_EXCLUDE_DIRS) →
        ∃ bytes, sz = some bytes ∧
          ({ path := join ['/'] comps, size := bytes } : FileInfo) ∈ m) ∧
    (∀ f ∈ m, ∃ (comps : List Str) (c : Option Str), comps ≠ [] ∧
        f.path = join ['/'] comps ∧
        (Node.dir size readable entries).walk comps = some (.file (some f.size) c) ∧
        ∀ d ∈ comps.dropLast, d ∉ DEFAULT_EXCLUDE_DIRS) ∧
    (m.map (fun f => f.path)).Nodup := by
  cases readable with
  | false => simp [getAllFiles] at hwalk
  | true =>
    simp only [getAllFiles] at hwalk
    refine ⟨?_, ?_, ?_⟩
    · intro comps sz c hne hw hdirs
      obtain ⟨n, tail, rfl⟩ := List.exists_cons_of_ne_nil hne
      simp only [Node.walk] at hw
      cases hfind : entries.find n with
      | none => simp [hfind] at hw
      | some node =>
        simp only [hfind] at hw
        obtain ⟨bytes, hb, hmem, hnames⟩ :=
          traverse_complete DEFAULT_EXCLUDE_DIRS entries [] m hplain hwalk n tail node sz c
            hfind hw (fun d hd => by simpa [includes] using hdirs d hd)
        rw [List.nil_append, (path_of_plain (n :: tail) (by simp) hnames).1] at hmem
        exact ⟨bytes, hb, hmem⟩
    · intro f hf
      obtain ⟨n, tail, hpath, hdirs, hnames, _, hfind⟩ :=
        traverse_sound DEFAULT_EXCLUDE_DIRS entries [] m f hplain hwalk hf
      obtain ⟨node, c, h1, h2⟩ := hfind hdistinct
      rw [List.nil_append, (path_of_plain (n :: tail) (by simp) hnames).1] at hpath
      refine ⟨n :: tail, c, by simp, hpath, by simp [Node.walk, h1, h2], ?_⟩
      intro d hd
      simpa [includes] using hdirs d hd
    · exact traverse_nodup DEFAULT_EXCLUDE_DIRS entries [] m hplain hdistinct (by simp) hwalk

theorem getAllFiles_manifest_witness :
    getAllFiles
        (some (.dir 4096 true
          (.cons ".git".toList
            (.dir 4096 true (.cons "config".toList (.file (some 9) none) .nil))
            (.cons "src".toList
              (.dir 4096 true (.cons "a.js".toList (.file (some 3) none) .nil))
              (.cons "README.md".toList (.file (some 10) none) .nil)))))
        DEFAULT_EXCLUDE_DIRS
      = some [{ path := "src/a.js".toList, size := 3 },
              { path := "README.md".toList, size := 10 }] ∧
    ∃ bytes, some 3 = some bytes ∧
      ({ path := join ['/'] ["src".toList, "a.js".toList], size := bytes } : FileInfo)
        ∈ [({ path := "src/a.js".toList, size := 3 } : FileInfo),
           { path := "README.md".toList, size := 10 }] :=
  ⟨by decide,
   (getAllFiles_manifest 4096 true
      (.cons ".git".toList
        (.dir 4096 true (.cons "config".toList (.file (some 9) none) .nil))
        (.cons "src".toList
          (.dir 4096 true (.cons "a.js".toList (.file (some 3) none) .nil))
          (.cons "README.md".toList (.file (some 10) none) .nil)))
      [{ path := "src/a.js".toList, size := 3 }, { path := "README.md".toList, size := 10 }]
      (by decide) (by decide) (by decide)).1
     ["src".toList, "a.js".toList] (some 3) none (by simp) (by decide) (by decide)⟩

/-! ## Default selection of `POST /api/generate` -/

theorem filesToProcess_default (session : Session) (sel : Option (List Str))
    (hsel : sel = none ∨ sel = some []) :
    filesToProcess session sel = session.files.map (fun f => f.path) := by
  rcases hsel with h | h <;> subst h <;> simp [filesToProcess]

/-- C9 fails as stated: the session `acme-widgets-1700000000000` is cached by a load while its
directory is empty; a file `new.txt` then appears in the directory.  The manifest of the
directory at the time of the call is `new.txt`, but `POST /api/generate` without a selection
processes the cached (empty) manifest: `# Total Files: 0`, no section. -/
theorem generate_uses_cached_manifest :
    getAllFiles
        (World.lookup
          { root := .dir 4096 true (.cons "cloned_repos".toList
              (.dir 4096 true (.cons "acme-widgets-1700000000000".toList
                (.dir 4096 true
                  (.cons "new.txt".toList (.file (some 2) (some "hi".toList)) .nil))
                .nil))
              .nil)
            cloneDir := { segs := ["cloned_repos".toList], trailing := false } }
          { segs := ["cloned_repos".toList, "acme-widgets-1700000000000".toList],
            trailing := false })
        DEFAULT_EXCLUDE_DIRS
      = some [{ path := "new.txt".toList, size := 2 }] ∧
    (generate "2024-01-01T00:00:00.000Z".toList
        { root := .dir 4096 true (.cons "cloned_repos".toList
            (.dir 4096 true (.cons "acme-widgets-1700000000000".toList
              (.dir 4096 true
                (.cons "new.txt".toList (.file (some 2) (some "hi".toList)) .nil))
              .nil))
            .nil)
          cloneDir := { segs := ["cloned_repos".toList], trailing := false } }
        (loadClone
          { root := .dir 4096 true (.cons "cloned_repos".toList
              (.dir 4096 true (.cons "acme-widgets-1700000000000".toList
                (.dir 4096 true .nil) .nil))
              .nil)
            cloneDir := { segs := ["cloned_repos".toList], trailing := false } }
          [] "acme-widgets-1700000000000".toList).1
        (some "acme-widgets-1700000000000".toList) none).2
      = .generated 0
          (contentHeader "acme".toList "widgets".toList "2024-01-01T00:00:00.000Z".toList 0)
          "acme-widgets-consolidated.txt".toList := by
  decide

/-- C9, amended: for a session whose clone directory exists, `POST /api/generate` with
`selectedFiles` absent or empty processes, in manifest order, the paths of the manifest of the
session it uses.  When the session is cached, that is the manifest stored in the cache entry,
which is not recomputed; when it is not cached (and the identifier has at least 3 components),
it is the manifest `getAllFiles` returns for the clone directory at the time of the call. -/
theorem generate_default_selection (nowIso : Str) (w : World) (sessions : Sessions)
    (sid : Str) (sel : Option (List Str)) (hsid : sid ≠ [])
    (hexists : w.access (pathJoin w.cloneDir sid) = true)
    (hsel : sel = none ∨ sel = some []) :
    (∀ session, Sessions.get sessions sid = some session →
      ∃ owner repo, (generate nowIso w sessions (some sid) sel).2
        = consolidate nowIso w (pathJoin w.cloneDir sid) owner repo
            (session.files.map (fun f => f.path))) ∧
    (Sessions.get sessions sid = none → 3 ≤ (split '-' sid).length →
      ∀ manifest, getAllFiles (w.lookup (pathJoin w.cloneDir sid)) DEFAULT_EXCLUDE_DIRS
          = some manifest →
        ∃ owner repo, (generate nowIso w sessions (some sid) sel).2
          = consolidate nowIso w (pathJoin w.cloneDir sid) owner repo
              (manifest.map (fun f => f.path))) := by
  constructor
  · intro session hget
    refine ⟨session.owner, session.repo, ?_⟩
    simp only [generate, hsid, if_false, hexists, Bool.not_true, Bool.false_eq_true,
      resolveSession, hget, filesToProcess_default _ sel hsel]
  · intro hget hparts manifest hwalk
    have hlen : ¬ (split '-' sid).length < 3 := by omega
    refine ⟨(split '-' sid).getD 0 [], (split '-' sid).getD 1 [], ?_⟩
    simp only [generate, hsid, if_false, hexists, Bool.not_true, Bool.false_eq_true,
      resolveSession, hget, hlen, hwalk, filesToProcess_default _ sel hsel]

theorem generate_default_selection_witness :
    ∃ owner repo,
      (generate "2024-01-01T00:00:00.000Z".toList
        { root := .dir 4096 true (.cons "cloned_repos".toList
            (.dir 4096 true (.cons "acme-widgets-1700000000000".toList
              (.dir 4096 true
                (.cons "new.txt".toList (.file (some 2) (some "hi".toList)) .nil))
              .nil))
            .nil)
          cloneDir := { segs := ["cloned_repos".toList], trailing := false } }
        [] (some "acme-widgets-1700000000000".toList) none).2
      = consolidate "2024-01-01T00:00:00.000Z".toList
          { root := .dir 4096 true (.cons "cloned_repos".toList
              (.dir 4096 true (.cons "acme-widgets-1700000000000".toList
                (.dir 4096 true
                  (.cons "new.txt".toList (.file (some 2) (some "hi".toList)) .nil))
                .nil))
              .nil)
            cloneDir := { segs := ["cloned_repos".toList], trailing := false } }
          { segs := ["cloned_repos".toList, "acme-widgets-1700000000000".toList],
            trailing := false }
          owner repo ["new.txt".toList] :=
  (generate_default_selection "2024-01-01T00:00:00.000Z".toList
      { root := .dir 4096 true (.cons "cloned_repos".toList
          (.dir 4096 true (.cons "acme-widgets-1700000000000".toList
            (.dir 4096 true
              (.cons "new.txt".toList (.file (some 2) (some "hi".toList)) .nil))
            .nil))
          .nil)
        cloneDir := { segs := ["cloned_repos".toList], trailing := false } }
      [] "acme-widgets-1700000000000".toList none (by decide) (by decide) (Or.inl rfl)).2
    (by decide) (by decide) [{ path := "new.txt".toList, size := 2 }] (by decide)

/-! ## Layout of the consolidated text -/

theorem RULE_eq : RULE = List.replicate 80 '=' := by decide

theorem contentHeader_eq_specHeader (owner repo nowIso : Str) (total : Nat) :
    contentHeader owner repo nowIso total = specHeader owner repo nowIso total := by
  have h1 : "/".toList = ['/'] := rfl
  have h2 : "\n".toList = ['\n'] := rfl
  have h3 : "\n\n".toList = ['\n', '\n'] := rfl
  simp [contentHeader, specHeader, RULE_eq, h1, h2, h3]

theorem foldl_appendFile (w : World) (clonePath : Path) :
    ∀ (todo : List Str) (acc : Str × Nat),
      (todo.foldl (appendFile w clonePath) acc).1
        = acc.1 ++ specSections (fun p => w.readFile (pathJoin clonePath p)) todo
  | [], acc => by simp [specSections]
  | p :: ps, acc => by
    have h2 : "\n".toList = ['\n'] := rfl
    have h3 : "\n\n".toList = ['\n', '\n'] := rfl
    rw [List.foldl_cons, foldl_appendFile w clonePath ps]
    cases hr : w.readFile (pathJoin clonePath p) with
    | none => simp [appendFile, specSections, hr]
    | some content =>
      simp only [appendFile, specSections, specSection, hr, RULE_eq, h2, h3,
        List.append_assoc, List.cons_append, List.nil_append]

/-- C10: for the session the handler works with and a non-empty `selectedFiles`, the content
`POST /api/generate` returns is the header (repository line, generation line, total line with
the length of `selectedFiles`, blank line, 80 `=`, blank line) followed, in the order of
`selectedFiles`, by one section per path that is read (the `FILE:` line, 80 `=` and a blank
line, the raw content, a blank line, 80 `=` and a blank line); a path whose read fails adds
nothing. -/
theorem generate_content (nowIso : Str) (w : World) (sessions sessions1 : Sessions)
    (sid : Str) (session : Session) (sel : List Str) (hsid : sid ≠ [])
    (hexists : w.access (pathJoin w.cloneDir sid) = true)
    (hsession : resolveSession w sessions sid (pathJoin w.cloneDir sid)
      = .ok (sessions1, session))
    (hsel : sel ≠ []) :
    ∃ processed filename,
      (generate nowIso w sessions (some sid) (some sel)).2
        = .generated processed
            (specHeader session.owner session.repo nowIso sel.length
              ++ specSections (fun p => w.readFile (pathJoin (pathJoin w.cloneDir sid) p)) sel)
            filename := by
  have hpos : sel.length > 0 := List.length_pos.mpr hsel
  refine ⟨(sel.foldl (appendFile w (pathJoin w.cloneDir sid))
      (contentHeader session.owner session.repo nowIso sel.length, 0)).2,
    session.owner ++ "-".toList ++ session.repo ++ "-consolidated.txt".toList, ?_⟩
  simp only [generate, hsid, if_false, hexists, Bool.not_true, Bool.false_eq_true, hsession,
    filesToProcess, hpos, if_true, consolidate, foldl_appendFile,
    contentHeader_eq_specHeader]

theorem generate_content_witness :
    ∃ processed filename,
      (generate "2024-01-01T00:00:00.000Z".toList
        { root := .dir 4096 true (.cons "cloned_repos".toList
            (.dir 4096 true (.cons "acme-widgets-1700000000000".toList
              (.dir 4096 true
                (.cons "a.txt".toList (.file (some 5) (some "hello".toList))
                  (.cons "b.txt".toList (.file (some 5) (some "world".toList)) .nil)))
              .nil))
            .nil)
          cloneDir := { segs := ["cloned_repos".toList], trailing := false } }
        [] (some "acme-widgets-1700000000000".toList)
        (some ["b.txt".toList, "missing.txt".toList, "a.txt".toList])).2
      = .generated processed
          (specHeader "acme".toList "widgets".toList "2024-01-01T00:00:00.000Z".toList 3
            ++ (specSection "b.txt".toList "world".toList
              ++ specSection "a.txt".toList "hello".toList))
          filename :=
  generate_content "2024-01-01T00:00:00.000Z".toList
    { root := .dir 4096 true (.cons "cloned_repos".toList
        (.dir 4096 true (.cons "acme-widgets-1700000000000".toList
          (.dir 4096 true
            (.cons "a.txt".toList (.file (some 5) (some "hello".toList))
              (.cons "b.txt".toList (.file (some 5) (some "world".toList)) .nil)))
          .nil))
        .nil)
      cloneDir := { segs := ["cloned_repos".toList], trailing := false } }
    []
    [("acme-widgets-1700000000000".toList,
      { clonePath := { segs := ["cloned_repos".toList, "acme-widgets-1700000000000".toList],
                       trailing := false }
        repoUrl := none, owner := "acme".toList, repo := "widgets".toList
        files := [{ path := "a.txt".toList, size := 5 }, { path := "b.txt".toList, size := 5 }]
        createdAt := some 1700000000000 })]
    "acme-widgets-1700000000000".toList
    { clonePath := { segs := ["cloned_repos".toList, "acme-widgets-1700000000000".toList],
                     trailing := false }
      repoUrl := none, owner := "acme".toList, repo := "widgets".toList
      files := [{ path := "a.txt".toList, size := 5 }, { path := "b.txt".toList, size := 5 }]
      createdAt := some 1700000000000 }
    ["b.txt".toList, "missing.txt".toList, "a.txt".toList]
    (by decide) (by decide) rfl (by decide)

/-! ## Files that cannot be read -/

theorem foldl_appendFile_count (w : World) (clonePath : Path) :
    ∀ (todo : List Str) (acc : Str × Nat),
      (todo.foldl (appendFile w clonePath) acc).2
        = acc.2 + todo.countP (fun p => (w.readFile (pathJoin clonePath p)).isSome)
  | [], acc => by simp
  | p :: ps, acc => by
    rw [List.foldl_cons, foldl_appendFile_count w clonePath ps]
    cases hr : w.readFile (pathJoin clonePath p) with
    | none => simp [appendFile, hr]
    | some content =>
      simp only [appendFile, hr, List.countP_cons, Option.isSome_some, if_true]
      omega

theorem countP_one_missing (read : Str → Option Str) (a b : List Str) (p : Str)
    (hp : read p = none) (hrest : ∀ q ∈ a ++ b, (read q).isSome = true) :
    (a ++ p :: b).countP (fun q => (read q).isSome) = (a ++ p :: b).length - 1 := by
  have ha : a.countP (fun q => (read q).isSome) = a.length :=
    List.countP_eq_length.mpr (fun q hq => hrest q (List.mem_append_left _ hq))
  have hb : b.countP (fun q => (read q).isSome) = b.length :=
    List.countP_eq_length.mpr (fun q hq => hrest q (List.mem_append_right _ hq))
  simp [List.countP_append, List.countP_cons, hp, ha, hb]

/-- C11 fails as stated: the directory of the uncached session `acme-widgets-1700000000000`
holds a readable `a.txt` and an entry `broken` that cannot be `stat`-ed (a dangling link).
The walk of line 286 throws outside the `try` of the read loop, and `POST /api/generate` with
the selection `a.txt`, `broken` answers the error of the outer `catch` (status 500). -/
theorem generate_fails_on_unreadable_entry :
    generate "2024-01-01T00:00:00.000Z".toList
        { root := .dir 4096 true (.cons "cloned_repos".toList
            (.dir 4096 true (.cons "acme-widgets-1700000000000".toList
              (.dir 4096 true
                (.cons "a.txt".toList (.file (some 5) (some "hello".toList))
                  (.cons "broken".toList (.file none none) .nil)))
              .nil))
            .nil)
          cloneDir := { segs := ["cloned_repos".toList], trailing := false } }
        [] (some "acme-widgets-1700000000000".toList)
        (some ["a.txt".toList, "broken".toList])
      = ([], .error 500 none) := by
  decide

/-- C11, amended: when the handler has its session (a cached session always, an uncached one
when its identifier has at least 3 components and the walk of its directory succeeds), `POST
/api/generate` answers with the success payload whatever files cannot be read, and
`processedFiles` is the number of entries of the processed list whose read succeeds; in
particular a selection with exactly one entry that cannot be read, all others readable, gives
`processedFiles = selectedFiles.length - 1`.  When the session is not cached and the walk of
its directory throws, the answer is the 500 error, whatever the selection. -/
theorem generate_processedFiles (nowIso : Str) (w : World) (sessions : Sessions)
    (sid : Str) (sel : Option (List Str)) (hsid : sid ≠ [])
    (hexists : w.access (pathJoin w.cloneDir sid) = true) :
    (∀ (sessions1 : Sessions) (session : Session),
      resolveSession w sessions sid (pathJoin w.cloneDir sid) = .ok (sessions1, session) →
      (∃ content filename,
        (generate nowIso w sessions (some sid) sel).2
          = .generated
              ((filesToProcess session sel).countP
                (fun p => (w.readFile (pathJoin (pathJoin w.cloneDir sid) p)).isSome))
              content filename) ∧
      (∀ (a b : List Str) (p : Str), sel = some (a ++ p :: b) →
        w.readFile (pathJoin (pathJoin w.cloneDir sid) p) = none →
        (∀ q ∈ a ++ b, (w.readFile (pathJoin (pathJoin w.cloneDir sid) q)).isSome = true) →
        ∃ content filename,
          (generate nowIso w sessions (some sid) sel).2
            = .generated ((a ++ p :: b).length - 1) content filename)) ∧
    (∀ session, Sessions.get sessions sid = some session →
      resolveSession w sessions sid (pathJoin w.cloneDir sid) = .ok (sessions, session)) ∧
    (Sessions.get sessions sid = none → 3 ≤ (split '-' sid).length →
      ∀ files, getAllFiles (w.lookup (pathJoin w.cloneDir sid)) DEFAULT_EXCLUDE_DIRS
          = some files →
        ∃ sessions1 session,
          resolveSession w sessions sid (pathJoin w.cloneDir sid)
            = .ok (sessions1, session)) ∧
    (Sessions.get sessions sid = none → 3 ≤ (split '-' sid).length →
      getAllFiles (w.lookup (pathJoin w.cloneDir sid)) DEFAULT_EXCLUDE_DIRS = none →
      generate nowIso w sessions (some sid) sel = (sessions, .error 500 none)) := by
  refine ⟨?_, ?_, ?_, ?_⟩
  · intro sessions1 session hsession
    have hgen : (generate nowIso w sessions (some sid) sel).2
        = .generated
            ((filesToProcess session sel).countP
              (fun p => (w.readFile (pathJoin (pathJoin w.cloneDir sid) p)).isSome))
            ((filesToProcess session sel).foldl (appendFile w (pathJoin w.cloneDir sid))
              (contentHeader session.owner session.repo nowIso
                (filesToProcess session sel).length, 0)).1
            (session.owner ++ "-".toList ++ session.repo ++ "-consolidated.txt".toList) := by
      simp only [generate, hsid, if_false, hexists, Bool.not_true, Bool.false_eq_true,
        hsession, consolidate, foldl_appendFile_count, Nat.zero_add]
    refine ⟨⟨_, _, hgen⟩, ?_⟩
    intro a b p hsel hp hrest
    have hlist : filesToProcess session sel = a ++ p :: b := by
      subst hsel
      simp [filesToProcess]
    have hcount := countP_one_missing
      (fun q => w.readFile (pathJoin (pathJoin w.cloneDir sid) q)) a b p hp hrest
    rw [hlist] at hgen
    rw [hcount] at hgen
    exact ⟨_, _, hgen⟩
  · intro session hget
    simp only [resolveSession, hget]
  · intro hget hparts files hwalk
    have hlen : ¬ (split '-' sid).length < 3 := by omega
    have hres : resolveSession w sessions sid (pathJoin w.cloneDir sid)
        = .ok (Sessions.set sessions sid
            { clonePath := pathJoin w.cloneDir sid, repoUrl := none,
              owner := (split '-' sid).getD 0 [], repo := (split '-' sid).getD 1 [],
              files := files, createdAt := parseInt ((split '-' sid).getD 2 []) },
            { clonePath := pathJoin w.cloneDir sid, repoUrl := none,
              owner := (split '-' sid).getD 0 [], repo := (split '-' sid).getD 1 [],
              files := files, createdAt := parseInt ((split '-' sid).getD 2 []) }) := by
      simp only [resolveSession, hget, hlen, if_false, hwalk]
    exact ⟨_, _, hres⟩
  · intro hget hparts hwalk
    have hlen : ¬ (split '-' sid).length < 3 := by omega
    simp only [generate, hsid, if_false, hexists, Bool.not_true, Bool.false_eq_true,
      resolveSession, hget, hlen, hwalk]

theorem generate_processedFiles_witness :
    ∃ content filename,
      (generate "2024-01-01T00:00:00.000Z".toList
        { root := .dir 4096 true (.cons "cloned_repos".toList
            (.dir 4096 true (.cons "acme-widgets-1700000000000".toList
              (.dir 4096 true
                (.cons "a.txt".toList (.file (some 5) (some "hello".toList))
                  (.cons "b.txt".toList (.file (some 5) (some "world".toList)) .nil)))
              .nil))
            .nil)
          cloneDir := { segs := ["cloned_repos".toList], trailing := false } }
        [] (some "acme-widgets-1700000000000".toList)
        (some (["b.txt".toList] ++ "missing.txt".toList :: ["a.txt".toList]))).2
      = .generated
          (([("b.txt".toList : Str)] ++ "missing.txt".toList :: ["a.txt".toList]).length - 1)
          content filename :=
  ((generate_processedFiles "2024-01-01T00:00:00.000Z".toList
    { root := .dir 4096 true (.cons "cloned_repos".toList
        (.dir 4096 true (.cons "acme-widgets-1700000000000".toList
          (.dir 4096 true
            (.cons "a.txt".toList (.file (some 5) (some "hello".toList))
              (.cons "b.txt".toList (.file (some 5) (some "world".toList)) .nil)))
          .nil))
        .nil)
      cloneDir := { segs := ["cloned_repos".toList], trailing := false } }
    []
    "acme-widgets-1700000000000".toList
    (some (["b.txt".toList] ++ "missing.txt".toList :: ["a.txt".toList]))
    (by decide) (by decide)).1
    [("acme-widgets-1700000000000".toList,
      { clonePath := { segs := ["cloned_repos".toList, "acme-widgets-1700000000000".toList],
                       trailing := false }
        repoUrl := none, owner := "acme".toList, repo := "widgets".toList
        files := [{ path := "a.txt".toList, size := 5 }, { path := "b.txt".toList, size := 5 }]
        createdAt := some 1700000000000 })]
    { clonePath := { segs := ["cloned_repos".toList, "acme-widgets-1700000000000".toList],
                     trailing := false }
      repoUrl := none, owner := "acme".toList, repo := "widgets".toList
      files := [{ path := "a.txt".toList, size := 5 }, { path := "b.txt".toList, size := 5 }]
      createdAt := some 1700000000000 }
    rfl).2
    ["b.txt".toList] ["a.txt".toList] "missing.txt".toList rfl (by decide) (by decide)

/-! ## File preview -/

theorem slice_zero {α : Type} (xs : List α) (k : Nat) :
    slice xs 0 (k : Int) = xs.take (min k xs.length) := by
  have h0 : relIndex xs.length 0 = 0 := by simp [relIndex]
  have hk : relIndex xs.length (k : Int) = min k xs.length := by
    have : ¬ ((k : Int) < 0) := by omega
    simp [relIndex, this]
  simp only [slice, h0, hk, List.drop_zero]

theorem join_cons_cons (sep p q : Str) (ps : List Str) :
    join sep (p :: q :: ps) = p ++ sep ++ join sep (q :: ps) := rfl

theorem join_take_prefix (sep : Str) : ∀ (parts : List Str) (k : Nat),
    join sep (parts.take k) <+: join sep parts
  | [], k => by simp [join]
  | [p], 0 => by simp [join]
  | [p], k + 1 => by simp [join]
  | p :: q :: ps, 0 => by simp [join]
  | p :: q :: ps, 1 => by
    simp only [List.take_succ_cons, List.take_zero, join]
    rw [List.append_assoc]
    exact List.prefix_append _ _
  | p :: q :: ps, k + 2 => by
    have ih := join_take_prefix sep (q :: ps) (k + 1)
    rw [List.take_succ_cons]
    rw [List.take_succ_cons] at ih ⊢
    rw [join_cons_cons, join_cons_cons]
    exact (List.prefix_append_right_inj _).mpr ih

theorem join_append (sep : Str) : ∀ (xs ys : List Str), xs ≠ [] → ys ≠ [] →
    join sep (xs ++ ys) = join sep xs ++ sep ++ join sep ys
  | [], _, h, _ => absurd rfl h
  | [x], y :: ys, _, _ => by simp [join]
  | [x], [], _, h => absurd rfl h
  | x :: x2 :: xs, ys, _, hy => by
    have ih := join_append sep (x2 :: xs) ys (by simp) hy
    rw [List.cons_append, List.cons_append, join_cons_cons, ← List.cons_append, ih,
      join_cons_cons]
    simp [List.append_assoc]

theorem join_take_ne (parts : List Str) (k : Nat) (hk : 0 < k) (hlen : k < parts.length) :
    join ['\n'] (parts.take k) ≠ join ['\n'] parts := by
  have htake : parts.take k ≠ [] := by
    intro h
    have := congrArg List.length h
    simp only [List.length_take, List.length_nil] at this
    omega
  have hdrop : parts.drop k ≠ [] := by
    intro h
    have := congrArg List.length h
    simp only [List.length_drop, List.length_nil] at this
    omega
  intro h
  have hsplit := join_append ['\n'] (parts.take k) (parts.drop k) htake hdrop
  rw [List.take_append_drop] at hsplit
  rw [hsplit] at h
  have := congrArg List.length h
  simp only [List.length_append, List.length_singleton] at this
  omega

/-- C14: for a file read with content `c`, the preview operation returns `totalLines` = the
number of segments of `c` split on the newline, `preview` = the first `min(20, totalLines)`
segments joined by the newline, and `hasMore` = (`totalLines > 20`); the preview is a prefix of
`c`, and it equals `c` exactly when `hasMore` is false. -/
theorem previewFile_spec (w : World) (sid filePath c : Str)
    (hread : w.readFile (pathJoin (pathJoin w.cloneDir sid) filePath) = some c) :
    previewFile w sid filePath
      = .preview (join ['\n'] ((split '\n' c).take (min 20 (split '\n' c).length)))
          (split '\n' c).length (decide ((split '\n' c).length > 20)) ∧
    join ['\n'] ((split '\n' c).take (min 20 (split '\n' c).length)) <+: c ∧
    (join ['\n'] ((split '\n' c).take (min 20 (split '\n' c).length)) = c
      ↔ decide ((split '\n' c).length > 20) = false) := by
  have hnl : "\n".toList = ['\n'] := rfl
  have hc : join ['\n'] (split '\n' c) = c := join_split '\n' c
  refine ⟨?_, ?_, ?_⟩
  · have h20 : slice (split '\n' c) 0 20 = (split '\n' c).take (min 20 (split '\n' c).length) :=
      slice_zero (split '\n' c) 20
    simp only [previewFile, hread, hnl, h20]
  · have := join_take_prefix ['\n'] (split '\n' c) (min 20 (split '\n' c).length)
    rw [hc] at this
    exact this
  · simp only [decide_eq_false_iff_not, not_lt]
    constructor
    · intro heq
      by_contra hgt
      have hlt : 20 < (split '\n' c).length := by omega
      have hmin : min 20 (split '\n' c).length = 20 := by omega
      rw [hmin] at heq
      exact join_take_ne (split '\n' c) 20 (by decide) hlt (heq.trans hc.symm)
    · intro hle
      have hmin : min 20 (split '\n' c).length = (split '\n' c).length := by omega
      rw [hmin, List.take_length, hc]

theorem previewFile_spec_witness :
    previewFile
        { root := .dir 4096 true (.cons "cloned_repos".toList
            (.dir 4096 true (.cons "acme-widgets-1700000000000".toList
              (.dir 4096 true
                (.cons "a.txt".toList (.file (some 11) (some "hello\nworld".toList)) .nil))
              .nil))
            .nil)
          cloneDir := { segs := ["cloned_repos".toList], trailing := false } }
        "acme-widgets-1700000000000".toList "a.txt".toList
      = .preview "hello\nworld".toList 2 false :=
  (previewFile_spec
    { root := .dir 4096 true (.cons "cloned_repos".toList
        (.dir 4096 true (.cons "acme-widgets-1700000000000".toList
          (.dir 4096 true
            (.cons "a.txt".toList (.file (some 11) (some "hello\nworld".toList)) .nil))
          .nil))
        .nil)
      cloneDir := { segs := ["cloned_repos".toList], trailing := false } }
    "acme-widgets-1700000000000".toList "a.txt".toList "hello\nworld".toList
    (by decide)).1

/-! ## The `createdAt` of cached sessions -/

/-- C13, the code at the failing input: a clone of `https://github.com/acme/widgets` whose
identifier is built at `Date.now() = 1700000000000` and whose `git clone` ends five seconds
later is cached with `createdAt = 1700000005000`, the second reading of the clock, while the
final component of its identifier is 1700000000000.  And `POST /api/generate` for the uncached
identifier `acme-my-widgets-1700000000000` caches `createdAt = NaN`, the `parseInt` of the
third component `widgets`. -/
theorem cached_createdAt_differs :
    (cloneRepo
        (fun w _ _ =>
          ({ w with
             root := .dir 4096 true (.cons "cloned_repos".toList
               (.dir 4096 true (.cons "acme-widgets-1700000000000".toList
                 (.dir 4096 true
                   (.cons "a.txt".toList (.file (some 5) (some "hello".toList)) .nil))
                 .nil))
               .nil) },
           true))
        1700000000000 1700000005000
        { root := .dir 4096 true (.cons "cloned_repos".toList (.dir 4096 true .nil) .nil)
          cloneDir := { segs := ["cloned_repos".toList], trailing := false } }
        [] (some "https://github.com/acme/widgets".toList)).2.1
      = [("acme-widgets-1700000000000".toList,
          { clonePath := { segs := ["cloned_repos".toList,
                                    "acme-widgets-1700000000000".toList],
                           trailing := false }
            repoUrl := some "https://github.com/acme/widgets".toList
            owner := "acme".toList, repo := "widgets".toList
            files := [{ path := "a.txt".toList, size := 5 }]
            createdAt := some 1700000005000 })] ∧
    parseInt (finalComponent "acme-widgets-1700000000000".toList) = some 1700000000000 ∧
    (generate "2024-01-01T00:00:00.000Z".toList
        { root := .dir 4096 true (.cons "cloned_repos".toList
            (.dir 4096 true (.cons "acme-my-widgets-1700000000000".toList
              (.dir 4096 true .nil) .nil))
            .nil)
          cloneDir := { segs := ["cloned_repos".toList], trailing := false } }
        [] (some "acme-my-widgets-1700000000000".toList) none).1
      = [("acme-my-widgets-1700000000000".toList,
          { clonePath := { segs := ["cloned_repos".toList,
                                    "acme-my-widgets-1700000000000".toList],
                           trailing := false }
            repoUrl := none, owner := "acme".toList, repo := "my".toList
            files := [], createdAt := none })] ∧
    parseInt (finalComponent "acme-my-widgets-1700000000000".toList)
      = some 1700000000000 := by
  decide

/-! ## Removal from the tree: lemmas -/

theorem find_remove (name a : Str) : ∀ (es : Entries),
    (es.remove name).find a = if a = name then none else es.find a
  | .nil => by simp [Entries.remove, Entries.find]
  | .cons n node rest => by
    have ih := find_remove name a rest
    by_cases hn : n = name
    · subst hn
      by_cases ha : a = n
      · subst ha
        simpa [Entries.remove, Entries.find] using ih
      · have ha2 : n ≠ a := fun e => ha e.symm
        simpa [Entries.remove, Entries.find, ha, ha2] using ih
    · by_cases ha : n = a
      · subst ha
        simp [Entries.remove, Entries.find, hn]
      · simp [Entries.remove, Entries.find, hn, ha, ih]

theorem find_eq_none_iff (n : Str) : ∀ (es : Entries),
    es.find n = none ↔ es.hasName n = false
  | .nil => by simp [Entries.find, Entries.hasName]
  | .cons m node rest => by
    have ih := find_eq_none_iff n rest
    by_cases hm : m = n
    · simp [Entries.find, Entries.hasName, hm]
    · simp [Entries.find, Entries.hasName, hm, ih]

theorem hasName_remove_self (name : Str) (es : Entries) :
    (es.remove name).hasName name = false := by
  rw [← find_eq_none_iff, find_remove]
  simp

theorem hasName_of_hasName_remove (name n : Str) (es : Entries)
    (h : (es.remove name).hasName n = true) : es.hasName n = true := by
  by_contra hno
  have hnone : es.find n = none := (find_eq_none_iff n es).mpr (by simpa using hno)
  have : (es.remove name).find n = none := by
    rw [find_remove]
    split_ifs
    · rfl
    · exact hnone
  rw [find_eq_none_iff] at this
  rw [this] at h
  exact absurd h (by simp)

theorem remove_of_not_hasName (name : Str) : ∀ (es : Entries),
    es.hasName name = false → es.remove name = es
  | .nil, _ => rfl
  | .cons n node rest, h => by
    simp only [Entries.hasName, Bool.or_eq_false_iff, decide_eq_false_iff_not] at h
    simp [Entries.remove, h.1, remove_of_not_hasName name rest h.2]

theorem find_replace (seg a : Str) (node : Node) : ∀ (es : Entries),
    (es.replace seg node).find a
      = if a = seg then (es.find seg).map (fun _ => node) else es.find a
  | .nil => by simp [Entries.replace, Entries.find]
  | .cons n old rest => by
    have ih := find_replace seg a node rest
    by_cases hn : n = seg
    · subst hn
      by_cases ha : a = n
      · subst ha
        simp [Entries.replace, Entries.find]
      · have ha2 : n ≠ a := fun e => ha e.symm
        simp [Entries.replace, Entries.find, ha, ha2]
    · by_cases ha : a = seg
      · subst ha
        simpa [Entries.replace, Entries.find, hn] using ih
      · by_cases hna : n = a
        · simp [Entries.replace, Entries.find, hn, ha, hna]
        · simpa [Entries.replace, Entries.find, hn, ha, hna] using ih

theorem hasName_replace (seg n : Str) (node : Node) : ∀ (es : Entries),
    (es.replace seg node).hasName n = es.hasName n
  | .nil => rfl
  | .cons m old rest => by
    have ih := hasName_replace seg n node rest
    by_cases hm : m = seg
    · simp [Entries.replace, Entries.hasName, hm]
    · simp [Entries.replace, Entries.hasName, hm, ih]

theorem removeAt_dir_cons (size : Nat) (readable : Bool) (es : Entries) (seg : Str)
    (segs : List Str) (h : segs ≠ []) :
    (Node.dir size readable es).removeAt (seg :: segs)
      = match es.find seg with
        | some child => .dir size readable (es.replace seg (child.removeAt segs))
        | none => .dir size readable es := by
  cases segs with
  | nil => exact absurd rfl h
  | cons t ts => simp [Node.removeAt]

theorem walk_append : ∀ (a b : List Str) (node : Node),
    node.walk (a ++ b) = (node.walk a).bind (fun n => n.walk b)
  | [], b, node => by simp [Node.walk]
  | seg :: segs, b, .file size content => by
    cases b <;> simp [Node.walk]
  | seg :: segs, b, .dir size readable es => by
    simp only [List.cons_append, Node.walk]
    cases hf : es.find seg with
    | none => simp
    | some child => simpa using walk_append segs b child

theorem walk_removeAt_sibling (sid name : Str) (rest : List Str) (hne : name ≠ sid) :
    ∀ (base : List Str) (node : Node),
      (node.removeAt (base ++ [sid])).walk (base ++ name :: rest)
        = node.walk (base ++ name :: rest)
  | [], .file size content => by simp [Node.removeAt]
  | [], .dir size readable es => by
    simp [Node.removeAt, Node.walk, find_remove, hne]
  | b :: bs, .file size content => by simp [Node.removeAt]
  | b :: bs, .dir size readable es => by
    rw [List.cons_append, removeAt_dir_cons _ _ _ _ _ (by simp)]
    cases hf : es.find b with
    | none => rfl
    | some child =>
      simp only [List.cons_append, Node.walk, find_replace, if_true, hf, Option.map_some']
      exact walk_removeAt_sibling sid name rest hne bs child

theorem walk_removeAt_parent (sid : Str) :
    ∀ (base : List Str) (node : Node),
      (node.removeAt (base ++ [sid])).walk base = (node.walk base).map (Node.without sid)
  | [], .file size content => by simp [Node.removeAt, Node.walk, Node.without]
  | [], .dir size readable es => by simp [Node.removeAt, Node.walk, Node.without]
  | b :: bs, .file size content => by simp [Node.removeAt, Node.walk]
  | b :: bs, .dir size readable es => by
    rw [List.cons_append, removeAt_dir_cons _ _ _ _ _ (by simp)]
    cases hf : es.find b with
    | none => simp [Node.walk, hf]
    | some child =>
      simp only [Node.walk, find_replace, if_true, hf, Option.map_some']
      exact walk_removeAt_parent sid bs child

theorem walk_removeAt_names :
    ∀ (p : List Str) (node : Node) (q : List Str) (size : Nat) (readable : Bool)
      (es2 : Entries),
      (node.removeAt p).walk q = some (.dir size readable es2) →
      ∃ es, node.walk q = some (.dir size readable es) ∧
        ∀ n, es2.hasName n = true → es.hasName n = true
  | [], node, q, size, readable, es2, h => by
    simp only [Node.removeAt] at h
    exact ⟨es2, h, fun n hn => hn⟩
  | seg :: segs, .file sz content, q, size, readable, es2, h => by
    simp only [Node.removeAt] at h
    exact ⟨es2, h, fun n hn => hn⟩
  | [seg], .dir sz rd es, [], size, readable, es2, h => by
    simp only [Node.removeAt, Node.walk, Option.some.injEq, Node.dir.injEq] at h
    obtain ⟨h1, h2, h3⟩ := h
    subst h1 h2 h3
    exact ⟨es, rfl, fun n hn => hasName_of_hasName_remove seg n es hn⟩
  | [seg], .dir sz rd es, a :: qs, size, readable, es2, h => by
    simp only [Node.removeAt, Node.walk, find_remove] at h
    by_cases ha : a = seg
    · simp [ha] at h
    · simp only [ha, if_false] at h
      exact ⟨es2, by simpa [Node.walk] using h, fun n hn => hn⟩
  | seg :: t :: ts, .dir sz rd es, q, size, readable, es2, h => by
    rw [removeAt_dir_cons _ _ _ _ _ (by simp)] at h
    cases hf : es.find seg with
    | none =>
      rw [hf] at h
      exact ⟨es2, h, fun n hn => hn⟩
    | some child =>
      rw [hf] at h
      cases q with
      | nil =>
        simp only [Node.walk, Option.some.injEq, Node.dir.injEq] at h
        obtain ⟨h1, h2, h3⟩ := h
        subst h1 h2 h3
        exact ⟨es, rfl, fun n hn => by rwa [hasName_replace] at hn⟩
      | cons a qs =>
        simp only [Node.walk, find_replace, hf, Option.map_some'] at h
        by_cases ha : a = seg
        · subst ha
          simp only [if_true] at h
          obtain ⟨es1, h1, h2⟩ :=
            walk_removeAt_names (t :: ts) child qs size readable es2 h
          exact ⟨es1, by simpa [Node.walk, hf] using h1, h2⟩
        · simp only [ha, if_false] at h
          exact ⟨es2, by simpa [Node.walk] using h, fun n hn => hn⟩

/-! ## Deleting a clone -/

theorem collectRepos_hasName :
    ∀ (entries : Entries) (r : RepoSummary), r ∈ collectRepos entries →
      entries.hasName r.sessionId = true
  | .nil, r, h => by simp [collectRepos] at h
  | .cons name (.file _ _) rest, r, h => by
    simp only [collectRepos] at h
    simp [Entries.hasName, collectRepos_hasName rest r h]
  | .cons name (.dir size readable children) rest, r, h => by
    simp only [collectRepos] at h
    split at h
    · rename_i found heq
      rcases List.mem_cons.mp h with h | h
      · subst h
        split_ifs at heq
        split at heq
        · split at heq
          · simp only [Option.some.injEq] at heq
            subst heq
            simp [Entries.hasName]
          · exact absurd heq (by simp)
        · exact absurd heq (by simp)
      · simp [Entries.hasName, collectRepos_hasName rest r h]
    · simp [Entries.hasName, collectRepos_hasName rest r h]

theorem lookup_some_walk (w : World) (p : Path) (node : Node) (h : w.lookup p = some node) :
    w.root.walk p.segs = some node := by
  unfold World.lookup at h
  split_ifs at h
  split at h
  · rename_i found hw
    split_ifs at h
    simp only [Option.some.injEq] at h
    rw [hw, h]
  · exact absurd h (by simp)

theorem cloneDirEntries_walk (w : World) (es : Entries) (h : cloneDirEntries w = some es) :
    ∃ size, w.root.walk w.cloneDir.segs = some (.dir size true es) := by
  unfold cloneDirEntries at h
  split_ifs at h
  split at h
  · rename_i size entries hl
    simp only [Option.some.injEq] at h
    subst h
    exact ⟨size, lookup_some_walk w w.cloneDir _ hl⟩
  · exact absurd h (by simp)

theorem rm_cases (w after : World) (p : Path) (h : w.rm p = some after) :
    after.cloneDir = w.cloneDir ∧
    ((after.root = w.root ∧ w.root.walk p.segs = none) ∨
      after.root = w.root.removeAt p.segs) := by
  unfold World.rm at h
  by_cases h1 : (p.segs.any (fun seg => seg.contains (Char.ofNat 0))) = true
  · rw [if_pos h1] at h
    exact absurd h (by simp)
  · rw [if_neg h1] at h
    by_cases h2 : p.segs = []
    · rw [if_pos h2] at h
      exact absurd h (by simp)
    · rw [if_neg h2] at h
      cases hw : w.root.walk p.segs with
      | none =>
        rw [hw] at h
        by_cases h3 : w.root.throughFile p.segs = true
        · simp [h3] at h
        · simp only [h3, if_false, Option.some.injEq, Bool.false_eq_true] at h
          subst h
          exact ⟨rfl, Or.inl ⟨rfl, rfl⟩⟩
      | some node =>
        rw [hw] at h
        by_cases h3 : (p.trailing && !node.isDirectory) = true
        · simp [h3] at h
        · by_cases h4 : node.removable = true
          · simp only [h3, h4, if_false, if_true, Option.some.injEq, Bool.false_eq_true] at h
            subst h
            exact ⟨rfl, Or.inr rfl⟩
          · simp [h3, h4] at h

theorem pathJoin_plain (base : Path) (sid : Str) (hslash : '/' ∉ sid) (hne : sid ≠ [])
    (hdot : sid ≠ ".".toList) (hdotdot : sid ≠ "..".toList) :
    pathJoin base sid = { segs := base.segs ++ [sid], trailing := false } := by
  have hlast : ¬ (sid.getLast? = some '/') := by
    intro h
    exact hslash (List.mem_of_getLast?_eq_some h)
  have hd1 : sid ≠ ['.'] := hdot
  have hd2 : sid ≠ ['.', '.'] := hdotdot
  simp [pathJoin, split_of_not_mem '/' sid hslash, normalizeSegs, hne, hd1, hd2, hlast]

theorem Sessions.get_delete_self (key : Str) : ∀ (m : Sessions),
    Sessions.get (Sessions.delete m key) key = none
  | [] => rfl
  | (k, v) :: rest => by
    have ih := Sessions.get_delete_self key rest
    unfold Sessions.delete at ih ⊢
    by_cases hk : k = key
    · simpa [List.filter, hk] using ih
    · simpa [List.filter, hk, Sessions.get] using ih

theorem Sessions.get_delete_ne (key other : Str) (hne : other ≠ key) : ∀ (m : Sessions),
    Sessions.get (Sessions.delete m key) other = Sessions.get m other
  | [] => rfl
  | (k, v) :: rest => by
    have ih := Sessions.get_delete_ne key other hne rest
    unfold Sessions.delete at ih ⊢
    by_cases hk : k = key
    · subst hk
      have hko : k ≠ other := fun e => hne e.symm
      simpa [List.filter, Sessions.get, hko] using ih
    · by_cases hko : k = other
      · subst hko
        simp [List.filter, hk, Sessions.get]
      · simpa [List.filter, hk, Sessions.get, hko] using ih

theorem not_listed_after_rm (w after : World) (sid : Str)
    (hrm : w.rm (pathJoin w.cloneDir sid) = some after)
    (hnames : ∀ size readable es, w.root.walk w.cloneDir.segs = some (.dir size readable es) →
      ∀ n, es.hasName n = true → '/' ∉ n) :
    ∀ r ∈ getAllClonedRepos after, r.sessionId ≠ sid := by
  intro r hr heq
  unfold getAllClonedRepos at hr
  cases hce : cloneDirEntries after with
  | none => simp [hce] at hr
  | some es2 =>
    simp only [hce, mem_sortBy] at hr
    have hdec := collectRepos_decodes es2 r hr
    have hhas := collectRepos_hasName es2 r hr
    rw [heq] at hdec hhas
    obtain ⟨size, hwalk⟩ := cloneDirEntries_walk after es2 hce
    obtain ⟨hdir, hroot⟩ := rm_cases w after _ hrm
    rw [hdir] at hwalk
    by_cases hs : '/' ∈ sid
    · have hsub : ∃ es, w.root.walk w.cloneDir.segs = some (.dir size true es) ∧
          ∀ n, es2.hasName n = true → es.hasName n = true := by
        rcases hroot with ⟨hsame, _⟩ | hrem
        · rw [hsame] at hwalk
          exact ⟨es2, hwalk, fun n hn => hn⟩
        · rw [hrem] at hwalk
          exact walk_removeAt_names _ _ _ _ _ _ hwalk
      obtain ⟨es, hw1, hw2⟩ := hsub
      exact hnames size true es hw1 sid (hw2 sid hhas) hs
    · have hne : sid ≠ [] := by
        intro e
        rw [e] at hdec
        exact hdec (by decide)
      have hdot : sid ≠ ".".toList := by
        intro e
        rw [e] at hdec
        exact hdec (by decide)
      have hdotdot : sid ≠ "..".toList := by
        intro e
        rw [e] at hdec
        exact hdec (by decide)
      rw [pathJoin_plain w.cloneDir sid hs hne hdot hdotdot] at hroot
      rcases hroot with ⟨hsame, hnone⟩ | hrem
      · rw [hsame] at hwalk
        simp only [walk_append, hwalk, Option.some_bind, Node.walk] at hnone
        have hfind : es2.find sid = none := by
          cases hf : es2.find sid with
          | none => rfl
          | some child => simp [hf] at hnone
        rw [(find_eq_none_iff sid es2).mp hfind] at hhas
        exact absurd hhas (by simp)
      · rw [hrem] at hwalk
        simp only [walk_removeAt_parent] at hwalk
        cases hb : w.root.walk w.cloneDir.segs with
        | none => simp [hb] at hwalk
        | some node =>
          cases node with
          | file sz content => simp [hb, Node.without] at hwalk
          | dir sz rd es =>
            simp only [hb, Option.map_some', Node.without, Option.some.injEq,
              Node.dir.injEq] at hwalk
            rw [← hwalk.2.2, hasName_remove_self] at hhas
            exact absurd hhas (by simp)

/-- C12 fails as stated: for the `sessionId` made of one NUL character `fs.rm` rejects the
path, and `DELETE /api/clone/:sessionId` answers with the error of its `catch` (status 500)
instead of `{success: true}`; the cache is left as it was. -/
theorem deleteClone_nul_fails :
    (deleteClone
        { root := .dir 4096 true (.cons "cloned_repos".toList (.dir 4096 true .nil) .nil)
          cloneDir := { segs := ["cloned_repos".toList], trailing := false } }
        [] [Char.ofNat 0]).2
      = ([], .error 500 none) := by
  decide

theorem mem_names_of_hasName (n : Str) : ∀ (es : Entries),
    es.hasName n = true → n ∈ es.names
  | .nil, h => by simp [Entries.hasName] at h
  | .cons m node rest, h => by
    simp only [Entries.hasName, Bool.or_eq_true, decide_eq_true_eq] at h
    rcases h with h | h
    · simp [Entries.names, h]
    · simp [Entries.names, mem_names_of_hasName n rest h]

theorem cloneRootNamesOk_spec (w : World) (h : w.cloneRootNamesOk = true) :
    ∀ size readable es, w.root.walk w.cloneDir.segs = some (.dir size readable es) →
      ∀ n, es.hasName n = true → '/' ∉ n := by
  intro size readable es hw n hn
  simp only [World.cloneRootNamesOk, hw, List.all_eq_true] at h
  simpa using h n (mem_names_of_hasName n es hn)

/-- C12, amended: for every state (entry names of the clone root having no `/`) and every
`sessionId`: when `fs.rm` does not throw for the session path, `DELETE /api/clone/:sessionId`
answers `{success: true}`, whether or not the directory or the cache entry exists, and
afterwards the sessions cache has no entry for `sessionId` and `getAllClonedRepos` returns no
entry with that `sessionId`; for a session path that names nothing (no NUL character in it,
not the root, not running through a non-directory) `fs.rm` does not throw and leaves the disk
as it is; when `fs.rm` throws, the answer is the 500 error and the sessions cache is as
before. -/
theorem deleteClone_success (w : World) (sessions : Sessions) (sid : Str)
    (hnames : w.cloneRootNamesOk = true) :
    (∀ after, w.rm (pathJoin w.cloneDir sid) = some after →
      deleteClone w sessions sid = (after, Sessions.delete sessions sid, .success) ∧
      Sessions.get (Sessions.delete sessions sid) sid = none ∧
      ∀ r ∈ getAllClonedRepos after, r.sessionId ≠ sid) ∧
    ((pathJoin w.cloneDir sid).segs.any (fun seg => seg.contains (Char.ofNat 0)) = false →
      (pathJoin w.cloneDir sid).segs ≠ [] →
      w.root.walk (pathJoin w.cloneDir sid).segs = none →
      w.root.throughFile (pathJoin w.cloneDir sid).segs = false →
      w.rm (pathJoin w.cloneDir sid) = some w) ∧
    (w.rm (pathJoin w.cloneDir sid) = none →
      (deleteClone w sessions sid).2 = (sessions, .error 500 none)) := by
  refine ⟨?_, ?_, ?_⟩
  · intro after hrm
    refine ⟨?_, Sessions.get_delete_self sid sessions,
      not_listed_after_rm w after sid hrm (cloneRootNamesOk_spec w hnames)⟩
    simp only [deleteClone, hrm]
  · intro hnul hsegs hwalk hthrough
    have h1 : ¬ ((pathJoin w.cloneDir sid).segs.any
        (fun seg => seg.contains (Char.ofNat 0)) = true) := by
      rw [hnul]
      exact Bool.false_ne_true
    unfold World.rm
    rw [if_neg h1, if_neg hsegs, hwalk]
    simp only [hthrough, Bool.false_eq_true, if_false]
  · intro hrm
    simp only [deleteClone, hrm]

theorem deleteClone_success_witness :
    deleteClone
        { root := .dir 4096 true (.cons "cloned_repos".toList
            (.dir 4096 true
              (.cons "acme-widgets-1700000000000".toList
                (.dir 4096 true
                  (.cons "a.txt".toList (.file (some 5) (some "hello".toList)) .nil))
                (.cons "acme-gadgets-1700000000001".toList (.dir 4096 true .nil) .nil)))
            .nil)
          cloneDir := { segs := ["cloned_repos".toList], trailing := false } }
        [("acme-widgets-1700000000000".toList,
          { clonePath := { segs := ["cloned_repos".toList,
                                    "acme-widgets-1700000000000".toList],
                           trailing := false }
            repoUrl := none, owner := "acme".toList, repo := "widgets".toList
            files := [{ path := "a.txt".toList, size := 5 }]
            createdAt := some 1700000000000 })]
        "acme-widgets-1700000000000".toList
      = ({ root := .dir 4096 true (.cons "cloned_repos".toList
             (.dir 4096 true
               (.cons "acme-gadgets-1700000000001".toList (.dir 4096 true .nil) .nil))
             .nil)
           cloneDir := { segs := ["cloned_repos".toList], trailing := false } },
         [], .success) ∧
    deleteClone
        { root := .dir 4096 true (.cons "cloned_repos".toList (.dir 4096 true .nil) .nil)
          cloneDir := { segs := ["cloned_repos".toList], trailing := false } }
        [] "acme-widgets-1700000000000".toList
      = ({ root := .dir 4096 true (.cons "cloned_repos".toList (.dir 4096 true .nil) .nil)
           cloneDir := { segs := ["cloned_repos".toList], trailing := false } },
         [], .success) :=
  ⟨((deleteClone_success
      { root := .dir 4096 true (.cons "cloned_repos".toList
          (.dir 4096 true
            (.cons "acme-widgets-1700000000000".toList
              (.dir 4096 true
                (.cons "a.txt".toList (.file (some 5) (some "hello".toList)) .nil))
              (.cons "acme-gadgets-1700000000001".toList (.dir 4096 true .nil) .nil)))
          .nil)
        cloneDir := { segs := ["cloned_repos".toList], trailing := false } }
      [("acme-widgets-1700000000000".toList,
        { clonePath := { segs := ["cloned_repos".toList,
                                  "acme-widgets-1700000000000".toList],
                         trailing := false }
          repoUrl := none, owner := "acme".toList, repo := "widgets".toList
          files := [{ path := "a.txt".toList, size := 5 }]
          createdAt := some 1700000000000 })]
      "acme-widgets-1700000000000".toList (by decide)).1
      { root := .dir 4096 true (.cons "cloned_repos".toList
          (.dir 4096 true
            (.cons "acme-gadgets-1700000000001".toList (.dir 4096 true .nil) .nil))
          .nil)
        cloneDir := { segs := ["cloned_repos".toList], trailing := false } }
      (by decide)).1,
   ((deleteClone_success
      { root := .dir 4096 true (.cons "cloned_repos".toList (.dir 4096 true .nil) .nil)
        cloneDir := { segs := ["cloned_repos".toList], trailing := false } }
      [] "acme-widgets-1700000000000".toList (by decide)).1
      { root := .dir 4096 true (.cons "cloned_repos".toList (.dir 4096 true .nil) .nil)
        cloneDir := { segs := ["cloned_repos".toList], trailing := false } }
      (by decide)).1⟩

/-- C15, the code at the failing input: the server lives in `/backend`, and the clone root
`/backend/cloned_repos` holds two clones.  The route parameter `.` contains no `/`, and
`DELETE /api/clone/.` removes the clone root itself with both clones in it
(`path.join(CLONE_DIR, '.')` is `CLONE_DIR`); `DELETE /api/clone/..` removes `/backend`, the
directory of the server. -/
theorem deleteClone_dot_removes_clone_root :
    '/' ∉ ".".toList ∧ '/' ∉ "..".toList ∧
    deleteClone
        { root := .dir 4096 true (.cons "backend".toList
            (.dir 4096 true
              (.cons "server.js".toList (.file (some 9000) (some "app".toList))
                (.cons "cloned_repos".toList
                  (.dir 4096 true
                    (.cons "acme-widgets-1700000000000".toList
                      (.dir 4096 true
                        (.cons "a.txt".toList (.file (some 5) (some "hello".toList)) .nil))
                      (.cons "acme-gadgets-1700000000001".toList (.dir 4096 true .nil)
                        .nil)))
                  .nil)))
            .nil)
          cloneDir := { segs := ["backend".toList, "cloned_repos".toList],
                        trailing := false } }
        [] ".".toList
      = ({ root := .dir 4096 true (.cons "backend".toList
             (.dir 4096 true
               (.cons "server.js".toList (.file (some 9000) (some "app".toList)) .nil))
             .nil)
           cloneDir := { segs := ["backend".toList, "cloned_repos".toList],
                         trailing := false } },
         [], .success) ∧
    deleteClone
        { root := .dir 4096 true (.cons "backend".toList
            (.dir 4096 true
              (.cons "server.js".toList (.file (some 9000) (some "app".toList))
                (.cons "cloned_repos".toList
                  (.dir 4096 true
                    (.cons "acme-widgets-1700000000000".toList
                      (.dir 4096 true
                        (.cons "a.txt".toList (.file (some 5) (some "hello".toList)) .nil))
                      (.cons "acme-gadgets-1700000000001".toList (.dir 4096 true .nil)
                        .nil)))
                  .nil)))
            .nil)
          cloneDir := { segs := ["backend".toList, "cloned_repos".toList],
                        trailing := false } }
        [] "..".toList
      = ({ root := .dir 4096 true .nil
           cloneDir := { segs := ["backend".toList, "cloned_repos".toList],
                         trailing := false } },
         [], .success) := by
  decide

/-- Frame of a deletion for an ordinary name: when `sessionId` contains no `/` and is neither
empty nor `.` nor `..`, the handler changes on disk at most the entry named `sessionId`
directly under the clone root: every path through another entry of the clone root leads to the
same node as before, the clone root is as before or as before without its entries named
`sessionId`, and every other entry of the sessions cache is unchanged. -/
theorem deleteClone_frame (w : World) (sessions : Sessions) (sid : Str)
    (hslash : '/' ∉ sid) (hne : sid ≠ []) (hdot : sid ≠ ".".toList)
    (hdotdot : sid ≠ "..".toList) :
    (deleteClone w sessions sid).1.cloneDir = w.cloneDir ∧
    (∀ (name : Str) (rest : List Str), name ≠ sid →
      (deleteClone w sessions sid).1.root.walk (w.cloneDir.segs ++ name :: rest)
        = w.root.walk (w.cloneDir.segs ++ name :: rest)) ∧
    ((deleteClone w sessions sid).1.root.walk w.cloneDir.segs = w.root.walk w.cloneDir.segs ∨
      (deleteClone w sessions sid).1.root.walk w.cloneDir.segs
        = (w.root.walk w.cloneDir.segs).map (Node.without sid)) ∧
    (∀ key, key ≠ sid →
      Sessions.get (deleteClone w sessions sid).2.1 key = Sessions.get sessions key) := by
  cases hrm : w.rm (pathJoin w.cloneDir sid) with
  | none =>
    simp [deleteClone, hrm]
  | some after =>
    obtain ⟨hdir, hroot⟩ := rm_cases w after _ hrm
    rw [pathJoin_plain w.cloneDir sid hslash hne hdot hdotdot] at hroot
    simp only [deleteClone, hrm]
    refine ⟨hdir, ?_, ?_, fun key hkey => Sessions.get_delete_ne sid key hkey sessions⟩
    · intro name rest hname
      rcases hroot with ⟨hsame, _⟩ | hrem
      · rw [hsame]
      · rw [hrem]
        exact walk_removeAt_sibling sid name rest hname _ _
    · rcases hroot with ⟨hsame, _⟩ | hrem
      · exact Or.inl (by rw [hsame])
      · exact Or.inr (by rw [hrem]; exact walk_removeAt_parent sid _ _)

theorem deleteClone_frame_witness :
    (deleteClone
        { root := .dir 4096 true (.cons "cloned_repos".toList
            (.dir 4096 true
              (.cons "acme-widgets-1700000000000".toList
                (.dir 4096 true
                  (.cons "a.txt".toList (.file (some 5) (some "hello".toList)) .nil))
                (.cons "acme-gadgets-1700000000001".toList
                  (.dir 4096 true
                    (.cons "b.txt".toList (.file (some 5) (some "world".toList)) .nil))
                  .nil)))
            .nil)
          cloneDir := { segs := ["cloned_repos".toList], trailing := false } }
        [] "acme-widgets-1700000000000".toList).1.root.walk
        (["cloned_repos".toList] ++ "acme-gadgets-1700000000001".toList :: ["b.txt".toList])
      = (Node.dir 4096 true (.cons "cloned_repos".toList
            (.dir 4096 true
              (.cons "acme-widgets-1700000000000".toList
                (.dir 4096 true
                  (.cons "a.txt".toList (.file (some 5) (some "hello".toList)) .nil))
                (.cons "acme-gadgets-1700000000001".toList
                  (.dir 4096 true
                    (.cons "b.txt".toList (.file (some 5) (some "world".toList)) .nil))
                  .nil)))
            .nil)).walk
        (["cloned_repos".toList] ++ "acme-gadgets-1700000000001".toList :: ["b.txt".toList]) :=
  (deleteClone_frame
    { root := .dir 4096 true (.cons "cloned_repos".toList
        (.dir 4096 true
          (.cons "acme-widgets-1700000000000".toList
            (.dir 4096 true
              (.cons "a.txt".toList (.file (some 5) (some "hello".toList)) .nil))
            (.cons "acme-gadgets-1700000000001".toList
              (.dir 4096 true
                (.cons "b.txt".toList (.file (some 5) (some "world".toList)) .nil))
              .nil)))
        .nil)
      cloneDir := { segs := ["cloned_repos".toList], trailing := false } }
    [] "acme-widgets-1700000000000".toList
    (by decide) (by decide) (by decide) (by decide)).2.1
    "acme-gadgets-1700000000001".toList ["b.txt".toList] (by decide)

end CodeFusion
